import Mathlib

/-!
# A shallow embedding of `lexer.c`

The scanner of `lexer.c` is translated function by function.  A C string is a
list of characters followed by a terminating NUL; the `Lexer` record keeps the
same four fields as the C struct, and every `while` loop of the source is a
structurally recursive function on an explicit iteration budget that answers
`none` when the budget is exhausted.  `lexError` prints and calls `exit(1)`,
which is modelled by a dedicated outcome carrying the message.
-/

namespace LexerC

/-! ## Characters and C strings -/

/-- The terminator of a C string. -/
def NUL : Char := Char.ofNat 0

/-- The double quote character. -/
def DQUOTE : Char := Char.ofNat 34

/-- The function `isspace` of `ctype.h` in the C locale: the blank and the
control characters from tab (9) to carriage return (13). -/
def isspace (c : Char) : Bool :=
  c.toNat == 32 || (9 ≤ c.toNat && c.toNat ≤ 13)

/-- The function `isdigit` of `ctype.h`. -/
def isdigit (c : Char) : Bool :=
  48 ≤ c.toNat && c.toNat ≤ 57

/-- The function `isalpha` of `ctype.h` in the C locale. -/
def isalpha (c : Char) : Bool :=
  (65 ≤ c.toNat && c.toNat ≤ 90) || (97 ≤ c.toNat && c.toNat ≤ 122)

/-- The function `isalnum` of `ctype.h` in the C locale. -/
def isalnum (c : Char) : Bool :=
  isalpha c || isdigit c

/-- The content of the C string stored in a buffer: the characters before the
first NUL. -/
def cstr (s : List Char) : List Char :=
  s.takeWhile (fun c => c != NUL)

/-- The function `strlen`. -/
def strlen (s : List Char) : Nat :=
  (cstr s).length

/-- The read `s[i]` of a buffer that holds the listed characters followed by
the terminator. -/
def charAt (s : List Char) (i : Nat) : Char :=
  s.getD i NUL

/-- The text produced by `strncpy(value, start, length); value[length] = 0`
with `start = src + start`, read back as a C string. -/
def substr (src : List Char) (start length : Nat) : List Char :=
  cstr ((src.drop start).take length)

/-! ## Tokens and the lexer record -/

/-- The enumeration `TokenType`. -/
inductive TokenType where
  | TOKEN_PLUS
  | TOKEN_MINUS
  | TOKEN_MUL
  | TOKEN_DIV
  | TOKEN_INT
  | TOKEN_FLOAT
  | TOKEN_STRING
  | TOKEN_PRINT
  | TOKEN_IF
  | TOKEN_ELSE
  | TOKEN_WHILE
  | TOKEN_FSTRING_START
  | TOKEN_FSTRING_END
  | TOKEN_FSTRING_VAR
  | TOKEN_IDENTIFIER
  | TOKEN_LPAREN
  | TOKEN_RPAREN
  | TOKEN_LBRACE
  | TOKEN_RBRACE
  | TOKEN_EQ
  | TOKEN_EQEQ
  | TOKEN_NEQ
  | TOKEN_LT
  | TOKEN_LTE
  | TOKEN_GT
  | TOKEN_GTE
  | TOKEN_EOF
  deriving DecidableEq, Repr

open TokenType

/-- The struct `Token`; `value` is the content of the C string it points to. -/
structure Token where
  type : TokenType
  value : List Char
  deriving DecidableEq, Repr

/-- The struct `Lexer`. -/
structure Lexer where
  src : List Char
  srcLen : Nat
  pos : Nat
  currentChar : Char
  deriving DecidableEq, Repr

/-- What a call that may end in `lexError` produces: a token together with the
lexer state after the call, the message of the fatal error, or nothing at all
when an iteration budget ran out. -/
inductive Outcome where
  | token (t : Token) (L : Lexer)
  | lexError (message : String)
  | outOfFuel
  deriving DecidableEq, Repr

/-- The function `makeToken`. -/
def makeToken (type : TokenType) (value : List Char) : Token :=
  { type := type, value := value }

/-- The function `initLexer`. -/
def initLexer (source : List Char) : Lexer :=
  { src := source, srcLen := strlen source, pos := 0, currentChar := charAt source 0 }

/-- The function `advance`. -/
def advance (L : Lexer) : Lexer :=
  if L.pos < L.srcLen ∧ L.currentChar ≠ NUL then
    { L with pos := L.pos + 1, currentChar := charAt L.src (L.pos + 1) }
  else
    { L with currentChar := NUL }

/-- The loop `while (p(lexer->currentChar)) advance(lexer);` run for at most
`fuel` tests of its condition. -/
def advanceWhile (p : Char → Bool) : Nat → Lexer → Option Lexer
  | 0, _ => none
  | fuel + 1, L => if p L.currentChar then advanceWhile p fuel (advance L) else some L

/-- The iteration budget given to each loop of the scanner.  A loop body either
moves `pos` towards `srcLen` or clears `currentChar`, and no loop exhausts the
budget on a lexer that satisfies the cursor invariant (`getNextToken_wf`,
`scan_ne_outOfFuel`). -/
def loopFuel (L : Lexer) : Nat :=
  L.srcLen - L.pos + 2

/-- The function `skipWhitespace`. -/
def skipWhitespace (L : Lexer) : Option Lexer :=
  advanceWhile isspace (loopFuel L) L

/-- The function `isIdentifierChar`. -/
def isIdentifierChar (c : Char) : Bool :=
  isalnum c || c == '_'

/-- The chain of `strcmp` tests that closes `getIdentifier`. -/
def keywordType (value : List Char) : TokenType :=
  if value = "if".toList then TOKEN_IF
  else if value = "else".toList then TOKEN_ELSE
  else if value = "while".toList then TOKEN_WHILE
  else if value = "print".toList then TOKEN_PRINT
  else TOKEN_IDENTIFIER

/-- The function `getIdentifier`. -/
def getIdentifier (L : Lexer) : Option (Token × Lexer) :=
  match advanceWhile isIdentifierChar (loopFuel L) L with
  | none => none
  | some L1 =>
    let value := substr L.src L.pos (L1.pos - L.pos)
    some (makeToken (keywordType value) value, L1)

/-- The loop of `getNumber`, which carries the flag `hasDot`. -/
def getNumberLoop : Nat → Bool → Lexer → Option (Bool × Lexer)
  | 0, _, _ => none
  | fuel + 1, hasDot, L =>
    if isdigit L.currentChar || L.currentChar == '.' then
      if L.currentChar == '.' then
        if hasDot then some (hasDot, L)
        else getNumberLoop fuel true (advance L)
      else getNumberLoop fuel hasDot (advance L)
    else some (hasDot, L)

/-- The function `getNumber`. -/
def getNumber (L : Lexer) : Option (Token × Lexer) :=
  match getNumberLoop (loopFuel L) false L with
  | none => none
  | some (hasDot, L1) =>
    let value := substr L.src L.pos (L1.pos - L.pos)
    if hasDot then some (makeToken TOKEN_FLOAT value, L1)
    else some (makeToken TOKEN_INT value, L1)

/-- A token returned by a helper, as an outcome of `getNextToken`. -/
def Outcome.ofHelper : Option (Token × Lexer) → Outcome
  | none => Outcome.outOfFuel
  | some (t, L) => Outcome.token t L

/-- The `switch` of `getNextToken` followed by `lexError("Unknown token")`. -/
def dispatch (L : Lexer) : Outcome :=
  let c := L.currentChar
  if c = '+' then Outcome.token (makeToken TOKEN_PLUS "+".toList) (advance L)
  else if c = '-' then Outcome.token (makeToken TOKEN_MINUS "-".toList) (advance L)
  else if c = '*' then Outcome.token (makeToken TOKEN_MUL "*".toList) (advance L)
  else if c = '/' then Outcome.token (makeToken TOKEN_DIV "/".toList) (advance L)
  else if c = '(' then Outcome.token (makeToken TOKEN_LPAREN "(".toList) (advance L)
  else if c = ')' then Outcome.token (makeToken TOKEN_RPAREN ")".toList) (advance L)
  else if c = '\x7b' then Outcome.token (makeToken TOKEN_LBRACE "\x7b".toList) (advance L)
  else if c = '\x7d' then Outcome.token (makeToken TOKEN_RBRACE "\x7d".toList) (advance L)
  else if c = '<' then Outcome.token (makeToken TOKEN_LTE "<".toList) (advance L)
  else if c = '>' then Outcome.token (makeToken TOKEN_GTE ">".toList) (advance L)
  else if c = '=' then
    let L1 := advance L
    if L1.currentChar = '=' then Outcome.token (makeToken TOKEN_EQEQ "==".toList) (advance L1)
    else Outcome.token (makeToken TOKEN_EQ "=".toList) L1
  else if c = '!' then
    let L1 := advance L
    if L1.currentChar = '=' then Outcome.token (makeToken TOKEN_NEQ "!=".toList) (advance L1)
    else Outcome.lexError "Unexpected character '!' without '='"
  else Outcome.lexError "Unknown token"

/-- The loop of `getNextToken`, run for at most `fuel` tests of its
condition; the token returned after the loop is `makeToken(TOKEN_EOF, "\0")`,
whose value is the empty C string. -/
def getNextTokenLoop : Nat → Lexer → Outcome
  | 0, _ => Outcome.outOfFuel
  | fuel + 1, L =>
    if L.currentChar ≠ NUL then
      if isspace L.currentChar then
        match skipWhitespace L with
        | none => Outcome.outOfFuel
        | some L1 => getNextTokenLoop fuel L1
      else if isalpha L.currentChar then Outcome.ofHelper (getIdentifier L)
      else if isdigit L.currentChar then Outcome.ofHelper (getNumber L)
      else dispatch L
    else Outcome.token (makeToken TOKEN_EOF []) L

/-- The function `getNextToken`. -/
def getNextToken (L : Lexer) : Outcome :=
  getNextTokenLoop (loopFuel L) L

/-- The function `skipComment`. -/
def skipComment (L : Lexer) : Option Lexer :=
  if L.currentChar = '/' then
    let L1 := advance L
    if L1.currentChar = '/' then
      advanceWhile (fun c => c != '\n' && c != NUL) (loopFuel L1) L1
    else some L1
  else some L

/-- The function `getString`. -/
def getString (L : Lexer) : Outcome :=
  let L1 := advance L
  match advanceWhile (fun c => c != DQUOTE && c != NUL) (loopFuel L1) L1 with
  | none => Outcome.outOfFuel
  | some L2 =>
    if L2.currentChar = NUL then Outcome.lexError "Unterminated string literal"
    else
      let value := substr L.src L1.pos (L2.pos - L1.pos)
      Outcome.token (makeToken TOKEN_STRING value) (advance L2)

/-- How a scanning session ends: with the end-of-input token, with a fatal
lexical error, or with the call budget exhausted. -/
inductive ScanEnd where
  | done
  | failed (message : String)
  | outOfFuel
  deriving DecidableEq, Repr

/-- The pull loop of `main`: call `getNextToken` until it returns `TOKEN_EOF`
or the process exits in `lexError`, at most `fuel` times.  The tokens are
listed in the order they are returned, the end-of-input token included. -/
def scanLoop : Nat → Lexer → List Token × ScanEnd
  | 0, _ => ([], ScanEnd.outOfFuel)
  | fuel + 1, L =>
    match getNextToken L with
    | Outcome.outOfFuel => ([], ScanEnd.outOfFuel)
    | Outcome.lexError m => ([], ScanEnd.failed m)
    | Outcome.token t L1 =>
      if t.type = TOKEN_EOF then ([t], ScanEnd.done)
      else
        let r := scanLoop fuel L1
        (t :: r.1, r.2)

/-- The scan of a whole source text by a fresh lexer. -/
def scan (source : List Char) : List Token × ScanEnd :=
  scanLoop (strlen source + 1) (initLexer source)

/-! ## The cursor seen as a split of the source text

The definitions below are not functions of `lexer.c`: they describe a lexer
state by the text it has consumed and the text it has ahead, and describe on
plain lists what one call of `getNextToken` reads.  The lemmas that follow
prove that the translated functions compute exactly that. -/

/-- The lexer over `src` that has consumed `pre` and has `rest` ahead. -/
def lexerAt (src pre rest : List Char) : Lexer :=
  { src := src, srcLen := strlen src, pos := pre.length, currentChar := rest.headD NUL }

/-- The cursor invariant: `srcLen` is the length of the source text, `pos` is
inside it and `currentChar` is the character under `pos`. -/
def Lexer.wf (L : Lexer) : Prop :=
  L.srcLen = strlen L.src ∧ L.pos ≤ L.srcLen ∧ L.currentChar = charAt L.src L.pos

/-- The source text not yet consumed. -/
def Lexer.rest (L : Lexer) : List Char :=
  (cstr L.src).drop L.pos

/-- The source text already consumed. -/
def Lexer.consumed (L : Lexer) : List Char :=
  (cstr L.src).take L.pos

/-- The lexer obtained from `L` by placing the cursor on position `p`. -/
def Lexer.moveTo (L : Lexer) (p : Nat) : Lexer :=
  { L with pos := p, currentChar := charAt L.src p }

/-- The longest prefix of a text made of digits and of at most one dot, where
`hasDot` tells that a dot was already met. -/
def numRun : Bool → List Char → List Char
  | _, [] => []
  | hasDot, c :: cs =>
    if isdigit c then c :: numRun hasDot cs
    else if c = '.' ∧ hasDot = false then c :: numRun true cs
    else []

/-- The token that `getNextToken` reads at the head of a text that does not
start with whitespace, or the message of the error it ends with; the value of
the token is the text it consumes. -/
def tokenAt (r : List Char) : Except String Token :=
  match r with
  | [] => Except.ok ⟨TOKEN_EOF, []⟩
  | c :: cs =>
    if isalpha c then
      Except.ok ⟨keywordType (r.takeWhile isIdentifierChar), r.takeWhile isIdentifierChar⟩
    else if isdigit c then
      Except.ok ⟨if '.' ∈ numRun false r then TOKEN_FLOAT else TOKEN_INT, numRun false r⟩
    else if c = '+' then Except.ok ⟨TOKEN_PLUS, [c]⟩
    else if c = '-' then Except.ok ⟨TOKEN_MINUS, [c]⟩
    else if c = '*' then Except.ok ⟨TOKEN_MUL, [c]⟩
    else if c = '/' then Except.ok ⟨TOKEN_DIV, [c]⟩
    else if c = '(' then Except.ok ⟨TOKEN_LPAREN, [c]⟩
    else if c = ')' then Except.ok ⟨TOKEN_RPAREN, [c]⟩
    else if c = '\x7b' then Except.ok ⟨TOKEN_LBRACE, [c]⟩
    else if c = '\x7d' then Except.ok ⟨TOKEN_RBRACE, [c]⟩
    else if c = '<' then Except.ok ⟨TOKEN_LTE, [c]⟩
    else if c = '>' then Except.ok ⟨TOKEN_GTE, [c]⟩
    else if c = '=' then
      if cs.head? = some '=' then Except.ok ⟨TOKEN_EQEQ, [c, '=']⟩
      else Except.ok ⟨TOKEN_EQ, [c]⟩
    else if c = '!' then
      if cs.head? = some '=' then Except.ok ⟨TOKEN_NEQ, [c, '=']⟩
      else Except.error "Unexpected character '!' without '='"
    else Except.error "Unknown token"

/-- The outcome of `getNextToken` on the lexer over `src` that has consumed
`pre` and has the text `r` ahead, `r` not starting with whitespace. -/
def outcomeAt (src pre r : List Char) : Outcome :=
  match tokenAt r with
  | Except.ok t => Outcome.token t (lexerAt src (pre ++ t.value) (r.drop t.value.length))
  | Except.error m => Outcome.lexError m

instance Lexer.decidableWf (L : Lexer) : Decidable L.wf := by
  unfold Lexer.wf
  infer_instance

/-- The source text scanned by `main`. -/
def mainSource : List Char :=
  "if x < 10 \x7b print \"x is less than 10\" \x7d".toList

/-- The lexer states reached from `initLexer source` by calls of
`getNextToken` that return a token. -/
inductive Reachable (source : List Char) : Lexer → Prop where
  | init : Reachable source (initLexer source)
  | next {L : Lexer} {t : Token} {L1 : Lexer} :
    Reachable source L → getNextToken L = Outcome.token t L1 → Reachable source L1

/-- The outcome of the last of `n + 1` successive calls of `getNextToken`, the
first one on `L`; a call that returns no token ends the sequence. -/
def callsFrom : Nat → Lexer → Outcome
  | 0, L => getNextToken L
  | n + 1, L =>
    match getNextToken L with
    | Outcome.token _ L1 => callsFrom n L1
    | o => o

/-- The single-character cases of the `switch` of `getNextToken`, each with the
kind it returns. -/
def opTable : List (Char × TokenType) :=
  [('+', TOKEN_PLUS), ('-', TOKEN_MINUS), ('*', TOKEN_MUL), ('/', TOKEN_DIV),
   ('(', TOKEN_LPAREN), (')', TOKEN_RPAREN), ('\x7b', TOKEN_LBRACE), ('\x7d', TOKEN_RBRACE),
   ('<', TOKEN_LTE), ('>', TOKEN_GTE)]

/-- The kinds that occur in a `return` statement reached by `getNextToken`. -/
def returnedKinds : List TokenType :=
  [TOKEN_PLUS, TOKEN_MINUS, TOKEN_MUL, TOKEN_DIV, TOKEN_INT, TOKEN_FLOAT, TOKEN_PRINT,
   TOKEN_IF, TOKEN_ELSE, TOKEN_WHILE, TOKEN_IDENTIFIER, TOKEN_LPAREN, TOKEN_RPAREN,
   TOKEN_LBRACE, TOKEN_RBRACE, TOKEN_EQ, TOKEN_EQEQ, TOKEN_NEQ, TOKEN_LTE, TOKEN_GTE,
   TOKEN_EOF]

/-- The source text of the comment example. -/
def commentSource : List Char :=
  "1 // comment\n2".toList

theorem mem_cstr_ne_nul {s : List Char} {c : Char} (h : c ∈ cstr s) : c ≠ NUL := by
  have := List.mem_takeWhile_imp h
  simpa using this

theorem cstr_eq_self {s : List Char} (h : ∀ c ∈ s, c ≠ NUL) : cstr s = s := by
  unfold cstr
  rw [List.takeWhile_eq_self_iff]
  intro c hc
  simpa using h c hc

theorem charAt_of_cstr (s a b : List Char) (h : cstr s = a ++ b) :
    charAt s a.length = b.headD NUL := by
  induction s generalizing a with
  | nil =>
    have h1 : a ++ b = [] := by simpa [cstr] using h.symm
    obtain ⟨rfl, rfl⟩ := List.append_eq_nil.mp h1
    rfl
  | cons x t ih =>
    by_cases hx : x = NUL
    · have h1 : a ++ b = [] := by simpa [cstr, hx] using h.symm
      obtain ⟨rfl, rfl⟩ := List.append_eq_nil.mp h1
      simp [charAt, hx]
    · have h1 : x :: cstr t = a ++ b := by
        rw [← h]; simp [cstr, hx]
      cases a with
      | nil =>
        simp at h1
        subst h1
        simp [charAt]
      | cons y a1 =>
        simp at h1
        have := ih a1 h1.2
        simpa [charAt] using this

theorem initLexer_eq (src : List Char) : initLexer src = lexerAt src [] (cstr src) := by
  have := charAt_of_cstr src [] (cstr src) rfl
  simp [initLexer, lexerAt] at *
  exact this

theorem strlen_of_cstr {src pre rest : List Char} (h : cstr src = pre ++ rest) :
    strlen src = pre.length + rest.length := by
  simp [strlen, h]

theorem advance_cons {src pre : List Char} {c : Char} {rest : List Char}
    (h : cstr src = pre ++ c :: rest) :
    advance (lexerAt src pre (c :: rest)) = lexerAt src (pre ++ [c]) rest := by
  have hc : c ≠ NUL := mem_cstr_ne_nul (s := src) (by rw [h]; simp)
  have hlen := strlen_of_cstr h
  have hch := charAt_of_cstr src (pre ++ [c]) rest (by simpa using h)
  simp at hlen hch
  simp [advance, lexerAt, hc, hlen, hch]

theorem advance_nil (src pre : List Char) :
    advance (lexerAt src pre []) = lexerAt src pre [] := by
  simp [advance, lexerAt]

theorem loopFuel_lexerAt {src pre rest : List Char} (h : cstr src = pre ++ rest) :
    loopFuel (lexerAt src pre rest) = rest.length + 2 := by
  simp [loopFuel, lexerAt, strlen_of_cstr h]

theorem advanceWhile_lexerAt (p : Char → Bool) (hp : p NUL = false) (src : List Char) :
    ∀ (rest pre : List Char) (fuel : Nat), cstr src = pre ++ rest → rest.length < fuel →
      advanceWhile p fuel (lexerAt src pre rest) =
        some (lexerAt src (pre ++ rest.takeWhile p) (rest.dropWhile p)) := by
  intro rest
  induction rest with
  | nil =>
    intro pre fuel _ hf
    obtain ⟨f, rfl⟩ : ∃ f, fuel = f + 1 := ⟨fuel - 1, by omega⟩
    simp [advanceWhile, lexerAt, hp]
  | cons c cs ih =>
    intro pre fuel h hf
    obtain ⟨f, rfl⟩ : ∃ f, fuel = f + 1 := ⟨fuel - 1, by omega⟩
    by_cases hc : p c = true
    · have h1 : (lexerAt src pre (c :: cs)).currentChar = c := rfl
      rw [advanceWhile, h1, if_pos hc, advance_cons h,
        ih (pre ++ [c]) f (by simpa using h) (by simpa using hf)]
      simp [hc]
    · have h1 : (lexerAt src pre (c :: cs)).currentChar = c := rfl
      rw [advanceWhile, h1, if_neg hc]
      simp [hc]

theorem substr_of_cstr {src pre run rest : List Char} (h : cstr src = pre ++ (run ++ rest)) :
    substr src pre.length ((pre ++ run).length - pre.length) = run := by
  have hsrc : src = (pre ++ (run ++ rest)) ++ src.dropWhile (fun c => c != NUL) := by
    rw [← h]; exact (List.takeWhile_append_dropWhile _ src).symm
  have hrun : ∀ c ∈ run, c ≠ NUL := fun c hc =>
    mem_cstr_ne_nul (s := src) (by rw [h]; simp [hc])
  have h2 : (src.drop pre.length).take ((pre ++ run).length - pre.length) = run := by
    rw [hsrc]
    simp [List.append_assoc, List.drop_append_eq_append_drop, List.take_append_eq_append_take]
  rw [substr, h2]
  exact cstr_eq_self hrun

theorem isspace_nul : isspace NUL = false := by decide

theorem isIdentifierChar_nul : isIdentifierChar NUL = false := by decide

theorem getIdentifier_lexerAt {src pre r : List Char} (h : cstr src = pre ++ r) :
    getIdentifier (lexerAt src pre r) =
      some (⟨keywordType (r.takeWhile isIdentifierChar), r.takeWhile isIdentifierChar⟩,
        lexerAt src (pre ++ r.takeWhile isIdentifierChar) (r.dropWhile isIdentifierChar)) := by
  have h1 := advanceWhile_lexerAt isIdentifierChar isIdentifierChar_nul src r pre
    (loopFuel (lexerAt src pre r)) h (by rw [loopFuel_lexerAt h]; omega)
  have h2 : cstr src = pre ++ (r.takeWhile isIdentifierChar ++ r.dropWhile isIdentifierChar) := by
    rw [List.takeWhile_append_dropWhile]; exact h
  have h3 := substr_of_cstr h2
  rw [getIdentifier, h1]
  simp only [lexerAt, makeToken] at h3 ⊢
  rw [h3]

theorem getNumberLoop_lexerAt (src : List Char) :
    ∀ (r pre : List Char) (fuel : Nat) (hasDot : Bool), cstr src = pre ++ r → r.length < fuel →
      getNumberLoop fuel hasDot (lexerAt src pre r) =
        some (hasDot || decide ('.' ∈ numRun hasDot r),
          lexerAt src (pre ++ numRun hasDot r) (r.drop (numRun hasDot r).length)) := by
  intro r
  induction r with
  | nil =>
    intro pre fuel hasDot _ hf
    obtain ⟨f, rfl⟩ : ∃ f, fuel = f + 1 := ⟨fuel - 1, by omega⟩
    have h0 : isdigit NUL = false := by decide
    have h1 : (NUL == '.') = false := by decide
    simp [getNumberLoop, lexerAt, numRun, h0, h1]
  | cons c cs ih =>
    intro pre fuel hasDot h hf
    obtain ⟨f, rfl⟩ : ∃ f, fuel = f + 1 := ⟨fuel - 1, by omega⟩
    have hcur : (lexerAt src pre (c :: cs)).currentChar = c := rfl
    have hnext : cstr src = (pre ++ [c]) ++ cs := by simpa using h
    have hlen : cs.length < f := by simpa using hf
    rw [getNumberLoop, hcur]
    by_cases hd : isdigit c = true
    · have hne : c ≠ '.' := by
        rintro rfl
        exact absurd hd (by decide)
      simp [hd, hne, numRun, advance_cons h, ih (pre ++ [c]) f hasDot hnext hlen, Ne.symm hne]
    · by_cases hdot : c = '.'
      · subst hdot
        cases hasDot with
        | true => simp [hd, numRun]
        | false => simp [hd, numRun, advance_cons h, ih (pre ++ ['.']) f true hnext hlen]
      · simp [hd, hdot, numRun]

theorem numRun_append_drop (hd : Bool) (l : List Char) :
    numRun hd l ++ l.drop (numRun hd l).length = l := by
  induction l generalizing hd with
  | nil => simp [numRun]
  | cons c cs ih =>
    by_cases hdg : isdigit c = true
    · simp [numRun, hdg, ih]
    · by_cases hdot : c = '.' ∧ hd = false
      · obtain ⟨rfl, rfl⟩ := hdot
        simp [numRun, hdg, ih]
      · simp [numRun, hdg, hdot]

theorem getNumber_lexerAt {src pre r : List Char} (h : cstr src = pre ++ r) :
    getNumber (lexerAt src pre r) =
      some (⟨if '.' ∈ numRun false r then TOKEN_FLOAT else TOKEN_INT, numRun false r⟩,
        lexerAt src (pre ++ numRun false r) (r.drop (numRun false r).length)) := by
  have h1 := getNumberLoop_lexerAt src r pre (loopFuel (lexerAt src pre r)) false h
    (by rw [loopFuel_lexerAt h]; omega)
  have h2 : cstr src = pre ++ (numRun false r ++ r.drop (numRun false r).length) := by
    rw [numRun_append_drop]; exact h
  have h3 := substr_of_cstr h2
  rw [getNumber, h1]
  simp only [lexerAt, makeToken] at h3 ⊢
  rw [h3]
  by_cases hm : '.' ∈ numRun false r <;> simp [hm]

theorem dispatch_lexerAt {src pre : List Char} {c : Char} {cs : List Char}
    (h : cstr src = pre ++ c :: cs) (ha : isalpha c = false) (hd : isdigit c = false) :
    dispatch (lexerAt src pre (c :: cs)) = outcomeAt src pre (c :: cs) := by
  have hcur : (lexerAt src pre (c :: cs)).currentChar = c := rfl
  have hadv := advance_cons h
  have hnext : (lexerAt src (pre ++ [c]) cs).currentChar = '=' ↔ cs.head? = some '=' := by
    cases cs with
    | nil =>
      have : NUL ≠ '=' := by decide
      simp [lexerAt, this]
    | cons d ds => simp [lexerAt]
  have hadv2 : cs.head? = some '=' →
      advance (lexerAt src (pre ++ [c]) cs) = lexerAt src (pre ++ [c, '=']) (cs.drop 1) := by
    intro hh
    cases cs with
    | nil => simp at hh
    | cons d ds =>
      simp at hh
      subst hh
      have h2 : cstr src = (pre ++ [c]) ++ '=' :: ds := by simpa using h
      simpa using advance_cons h2
  unfold dispatch outcomeAt tokenAt
  simp only [hcur, hadv, ha, hd, hnext]
  by_cases h0 : c = '+'
  · rw [if_pos h0, if_pos h0]; subst h0; rfl
  rw [if_neg h0, if_neg h0]
  by_cases h1 : c = '-'
  · rw [if_pos h1, if_pos h1]; subst h1; rfl
  rw [if_neg h1, if_neg h1]
  by_cases h2 : c = '*'
  · rw [if_pos h2, if_pos h2]; subst h2; rfl
  rw [if_neg h2, if_neg h2]
  by_cases h3 : c = '/'
  · rw [if_pos h3, if_pos h3]; subst h3; rfl
  rw [if_neg h3, if_neg h3]
  by_cases h4 : c = '('
  · rw [if_pos h4, if_pos h4]; subst h4; rfl
  rw [if_neg h4, if_neg h4]
  by_cases h5 : c = ')'
  · rw [if_pos h5, if_pos h5]; subst h5; rfl
  rw [if_neg h5, if_neg h5]
  by_cases h6 : c = '\x7b'
  · rw [if_pos h6, if_pos h6]; subst h6; rfl
  rw [if_neg h6, if_neg h6]
  by_cases h7 : c = '\x7d'
  · rw [if_pos h7, if_pos h7]; subst h7; rfl
  rw [if_neg h7, if_neg h7]
  by_cases h8 : c = '<'
  · rw [if_pos h8, if_pos h8]; subst h8; rfl
  rw [if_neg h8, if_neg h8]
  by_cases h9 : c = '>'
  · rw [if_pos h9, if_pos h9]; subst h9; rfl
  rw [if_neg h9, if_neg h9]
  by_cases he : c = '='
  · rw [if_pos he, if_pos he]
    by_cases hn : cs.head? = some '='
    · rw [if_pos hn, if_pos hn, hadv2 hn]; subst he; rfl
    · rw [if_neg hn, if_neg hn]; subst he; rfl
  rw [if_neg he, if_neg he]
  by_cases hb : c = '!'
  · rw [if_pos hb, if_pos hb]
    by_cases hn : cs.head? = some '='
    · rw [if_pos hn, if_pos hn, hadv2 hn]; subst hb; rfl
    · rw [if_neg hn, if_neg hn]; rfl
  rw [if_neg hb, if_neg hb]
  rfl

theorem drop_takeWhile_length (p : Char → Bool) (l : List Char) :
    l.drop (l.takeWhile p).length = l.dropWhile p := by
  induction l with
  | nil => rfl
  | cons c cs ih =>
    by_cases hc : p c = true
    · simp [hc, ih]
    · simp [hc]

theorem getNextTokenLoop_head {src pre r : List Char} (h : cstr src = pre ++ r)
    (hns : ∀ c ∈ r.head?, isspace c = false) (fuel : Nat) :
    getNextTokenLoop (fuel + 1) (lexerAt src pre r) = outcomeAt src pre r := by
  cases r with
  | nil =>
    simp [getNextTokenLoop, lexerAt, outcomeAt, tokenAt, makeToken]
  | cons c cs =>
    have hc : c ≠ NUL := mem_cstr_ne_nul (s := src) (by rw [h]; simp)
    have hsp : isspace c = false := hns c (by simp)
    have hcur : (lexerAt src pre (c :: cs)).currentChar = c := rfl
    rw [getNextTokenLoop, hcur, if_pos hc]
    simp only [hsp, Bool.false_eq_true, if_false]
    by_cases ha : isalpha c = true
    · rw [if_pos ha, getIdentifier_lexerAt h]
      simp only [Outcome.ofHelper, outcomeAt, tokenAt, ha, if_true]
      rw [drop_takeWhile_length]
    · rw [if_neg ha]
      by_cases hd : isdigit c = true
      · rw [if_pos hd, getNumber_lexerAt h]
        simp only [Outcome.ofHelper, outcomeAt, tokenAt, ha, hd, if_true, Bool.false_eq_true,
          if_false]
      · rw [if_neg hd]
        exact dispatch_lexerAt h (by simpa using ha) (by simpa using hd)

theorem getNextToken_lexerAt {src pre r : List Char} (h : cstr src = pre ++ r) :
    getNextToken (lexerAt src pre r) =
      outcomeAt src (pre ++ r.takeWhile isspace) (r.dropWhile isspace) := by
  rw [getNextToken, loopFuel_lexerAt h]
  by_cases hsp : ∀ c ∈ r.head?, isspace c = false
  · have h1 : r.takeWhile isspace = [] := by
      cases r with
      | nil => rfl
      | cons c cs => simp [hsp c (by simp)]
    have h2 : r.dropWhile isspace = r := by
      cases r with
      | nil => rfl
      | cons c cs => simp [hsp c (by simp)]
    rw [h1, h2, List.append_nil]
    exact getNextTokenLoop_head h hsp _
  · cases r with
    | nil => simp at hsp
    | cons c cs =>
      have hc : isspace c = true := by simpa using hsp
      have hnul : c ≠ NUL := mem_cstr_ne_nul (s := src) (by rw [h]; simp)
      have hcur : (lexerAt src pre (c :: cs)).currentChar = c := rfl
      have hskip := advanceWhile_lexerAt isspace isspace_nul src (c :: cs) pre
        (loopFuel (lexerAt src pre (c :: cs))) h (by rw [loopFuel_lexerAt h]; omega)
      have h3 : cstr src = (pre ++ (c :: cs).takeWhile isspace) ++ (c :: cs).dropWhile isspace := by
        rw [List.append_assoc, List.takeWhile_append_dropWhile]; exact h
      have hns : ∀ d ∈ ((c :: cs).dropWhile isspace).head?, isspace d = false := by
        intro d hd
        have := List.head?_dropWhile_not isspace (c :: cs)
        rw [Option.mem_def] at hd
        rw [hd] at this
        exact this
      rw [getNextTokenLoop, hcur, if_pos hnul, if_pos hc, skipWhitespace, hskip]
      exact getNextTokenLoop_head h3 hns _

theorem tokenAt_cons_cases (c : Char) (cs : List Char) :
    (isalpha c = true ∧ tokenAt (c :: cs) =
        Except.ok ⟨keywordType ((c :: cs).takeWhile isIdentifierChar),
          (c :: cs).takeWhile isIdentifierChar⟩)
    ∨ (isalpha c = false ∧ isdigit c = true ∧ tokenAt (c :: cs) =
        Except.ok ⟨if '.' ∈ numRun false (c :: cs) then TOKEN_FLOAT else TOKEN_INT,
          numRun false (c :: cs)⟩)
    ∨ (isalpha c = false ∧ isdigit c = false ∧
        ∃ T, T ≠ TOKEN_EOF ∧ tokenAt (c :: cs) = Except.ok ⟨T, [c]⟩)
    ∨ (isalpha c = false ∧ isdigit c = false ∧ (c = '=' ∨ c = '!') ∧
        ∃ ds, cs = '=' :: ds ∧ ∃ T, T ≠ TOKEN_EOF ∧ tokenAt (c :: cs) = Except.ok ⟨T, [c, '=']⟩)
    ∨ (isalpha c = false ∧ isdigit c = false ∧ ∃ m, tokenAt (c :: cs) = Except.error m) := by
  by_cases ha : isalpha c = true
  · exact Or.inl ⟨ha, by rw [tokenAt, if_pos ha]⟩
  by_cases hd : isdigit c = true
  · exact Or.inr (Or.inl ⟨by simpa using ha, hd, by rw [tokenAt, if_neg ha, if_pos hd]⟩)
  have ha1 : isalpha c = false := by simpa using ha
  have hd1 : isdigit c = false := by simpa using hd
  have hhead : ∀ {x : Char}, cs.head? = some x → ∃ ds, cs = x :: ds := by
    intro x hx
    cases cs with
    | nil => simp at hx
    | cons y ys => exact ⟨ys, by simp at hx; rw [hx]⟩
  by_cases h0 : c = '+'
  · exact Or.inr (Or.inr (Or.inl ⟨ha1, hd1, TOKEN_PLUS, by decide,
      by rw [tokenAt, if_neg ha, if_neg hd, if_pos h0]⟩))
  by_cases h1 : c = '-'
  · exact Or.inr (Or.inr (Or.inl ⟨ha1, hd1, TOKEN_MINUS, by decide,
      by rw [tokenAt, if_neg ha, if_neg hd, if_neg h0, if_pos h1]⟩))
  by_cases h2 : c = '*'
  · exact Or.inr (Or.inr (Or.inl ⟨ha1, hd1, TOKEN_MUL, by decide,
      by rw [tokenAt, if_neg ha, if_neg hd, if_neg h0, if_neg h1, if_pos h2]⟩))
  by_cases h3 : c = '/'
  · exact Or.inr (Or.inr (Or.inl ⟨ha1, hd1, TOKEN_DIV, by decide,
      by rw [tokenAt, if_neg ha, if_neg hd, if_neg h0, if_neg h1, if_neg h2, if_pos h3]⟩))
  by_cases h4 : c = '('
  · exact Or.inr (Or.inr (Or.inl ⟨ha1, hd1, TOKEN_LPAREN, by decide,
      by rw [tokenAt, if_neg ha, if_neg hd, if_neg h0, if_neg h1, if_neg h2, if_neg h3, if_pos h4]⟩))
  by_cases h5 : c = ')'
  · exact Or.inr (Or.inr (Or.inl ⟨ha1, hd1, TOKEN_RPAREN, by decide,
      by rw [tokenAt, if_neg ha, if_neg hd, if_neg h0, if_neg h1, if_neg h2, if_neg h3, if_neg h4, if_pos h5]⟩))
  by_cases h6 : c = '\x7b'
  · exact Or.inr (Or.inr (Or.inl ⟨ha1, hd1, TOKEN_LBRACE, by decide,
      by rw [tokenAt, if_neg ha, if_neg hd, if_neg h0, if_neg h1, if_neg h2, if_neg h3, if_neg h4, if_neg h5, if_pos h6]⟩))
  by_cases h7 : c = '\x7d'
  · exact Or.inr (Or.inr (Or.inl ⟨ha1, hd1, TOKEN_RBRACE, by decide,
      by rw [tokenAt, if_neg ha, if_neg hd, if_neg h0, if_neg h1, if_neg h2, if_neg h3, if_neg h4, if_neg h5, if_neg h6, if_pos h7]⟩))
  by_cases h8 : c = '<'
  · exact Or.inr (Or.inr (Or.inl ⟨ha1, hd1, TOKEN_LTE, by decide,
      by rw [tokenAt, if_neg ha, if_neg hd, if_neg h0, if_neg h1, if_neg h2, if_neg h3, if_neg h4, if_neg h5, if_neg h6, if_neg h7, if_pos h8]⟩))
  by_cases h9 : c = '>'
  · exact Or.inr (Or.inr (Or.inl ⟨ha1, hd1, TOKEN_GTE, by decide,
      by rw [tokenAt, if_neg ha, if_neg hd, if_neg h0, if_neg h1, if_neg h2, if_neg h3, if_neg h4, if_neg h5, if_neg h6, if_neg h7, if_neg h8, if_pos h9]⟩))
  by_cases he : c = '='
  · by_cases hn : cs.head? = some '='
    · exact Or.inr (Or.inr (Or.inr (Or.inl ⟨ha1, hd1, Or.inl he, (hhead hn).imp fun ds hds =>
        ⟨hds, TOKEN_EQEQ, by decide, by rw [tokenAt, if_neg ha, if_neg hd, if_neg h0, if_neg h1, if_neg h2, if_neg h3, if_neg h4, if_neg h5, if_neg h6, if_neg h7, if_neg h8, if_neg h9, if_pos he, if_pos hn]⟩⟩)))
    · exact Or.inr (Or.inr (Or.inl ⟨ha1, hd1, TOKEN_EQ, by decide,
        by rw [tokenAt, if_neg ha, if_neg hd, if_neg h0, if_neg h1, if_neg h2, if_neg h3, if_neg h4, if_neg h5, if_neg h6, if_neg h7, if_neg h8, if_neg h9, if_pos he, if_neg hn]⟩))
  by_cases hb : c = '!'
  · by_cases hn : cs.head? = some '='
    · exact Or.inr (Or.inr (Or.inr (Or.inl ⟨ha1, hd1, Or.inr hb, (hhead hn).imp fun ds hds =>
        ⟨hds, TOKEN_NEQ, by decide, by rw [tokenAt, if_neg ha, if_neg hd, if_neg h0, if_neg h1, if_neg h2, if_neg h3, if_neg h4, if_neg h5, if_neg h6, if_neg h7, if_neg h8, if_neg h9, if_neg he, if_pos hb, if_pos hn]⟩⟩)))
    · exact Or.inr (Or.inr (Or.inr (Or.inr ⟨ha1, hd1, _,
        by rw [tokenAt, if_neg ha, if_neg hd, if_neg h0, if_neg h1, if_neg h2, if_neg h3, if_neg h4, if_neg h5, if_neg h6, if_neg h7, if_neg h8, if_neg h9, if_neg he, if_pos hb, if_neg hn]⟩)))
  · exact Or.inr (Or.inr (Or.inr (Or.inr ⟨ha1, hd1, _,
      by rw [tokenAt, if_neg ha, if_neg hd, if_neg h0, if_neg h1, if_neg h2, if_neg h3, if_neg h4, if_neg h5, if_neg h6, if_neg h7, if_neg h8, if_neg h9, if_neg he, if_neg hb]⟩)))

theorem isspace_of_isIdentifierChar {c : Char} (h : isIdentifierChar c = true) :
    isspace c = false := by
  by_cases hu : c = '_'
  · subst hu; decide
  · simp [isIdentifierChar, isalnum, isalpha, isdigit, hu] at h
    simp [isspace]
    omega

theorem isspace_of_isdigit {c : Char} (h : isdigit c = true) : isspace c = false := by
  simp [isdigit] at h
  simp [isspace]
  omega

theorem isIdentifierChar_of_isalpha {c : Char} (h : isalpha c = true) :
    isIdentifierChar c = true := by
  simp [isIdentifierChar, isalnum, h]

theorem mem_numRun {c : Char} :
    ∀ {hd : Bool} {l : List Char}, c ∈ numRun hd l → isdigit c = true ∨ c = '.' := by
  intro hd l
  induction l generalizing hd with
  | nil => simp [numRun]
  | cons x xs ih =>
    intro h
    by_cases hx : isdigit x = true
    · simp [numRun, hx] at h
      rcases h with rfl | h
      · exact Or.inl hx
      · exact ih h
    · by_cases hdot : x = '.' ∧ hd = false
      · obtain ⟨rfl, rfl⟩ := hdot
        simp [numRun, hx] at h
        rcases h with rfl | h
        · exact Or.inr rfl
        · exact ih h
      · simp [numRun, hx, hdot] at h

theorem keywordType_ne_eof (v : List Char) : keywordType v ≠ TOKEN_EOF := by
  unfold keywordType
  split_ifs <;> decide

theorem tokenAt_ok {r : List Char} {t : Token} (hns : ∀ c ∈ r.head?, isspace c = false)
    (h : tokenAt r = Except.ok t) :
    t.value ++ r.drop t.value.length = r ∧ (∀ c ∈ t.value, isspace c = false) ∧
      (t.type = TOKEN_EOF → r = []) ∧ (r ≠ [] → t.value ≠ []) := by
  cases r with
  | nil =>
    simp [tokenAt] at h
    subst h
    simp
  | cons c cs =>
    have hsp : isspace c = false := hns c (by simp)
    rcases tokenAt_cons_cases c cs with ⟨ha, h1⟩ | ⟨_, hd, h1⟩ | ⟨_, _, T, hT, h1⟩ |
      ⟨_, _, hc, ds, hds, T, hT, h1⟩ | ⟨_, _, m, h1⟩
    · rw [h1] at h
      injection h with h
      subst h
      refine ⟨?_, ?_, ?_, ?_⟩
      · simp only [drop_takeWhile_length, List.takeWhile_append_dropWhile]
      · intro d hdm
        exact isspace_of_isIdentifierChar (by simpa using List.mem_takeWhile_imp hdm)
      · intro he
        exact absurd he (keywordType_ne_eof _)
      · intro _
        simp [isIdentifierChar_of_isalpha ha]
    · rw [h1] at h
      injection h with h
      subst h
      refine ⟨numRun_append_drop false (c :: cs), ?_, ?_, ?_⟩
      · intro d hdm
        rcases mem_numRun hdm with h2 | rfl
        · exact isspace_of_isdigit h2
        · decide
      · intro he
        simp only at he
        split_ifs at he
      · intro _
        simp [numRun, hd]
    · rw [h1] at h
      injection h with h
      subst h
      refine ⟨by simp, ?_, fun he => absurd he hT, by simp⟩
      intro d hdm
      simp at hdm
      subst hdm
      exact hsp
    · rw [h1] at h
      injection h with h
      subst h
      subst hds
      refine ⟨by simp, ?_, fun he => absurd he hT, by simp⟩
      intro d hdm
      simp at hdm
      rcases hdm with rfl | rfl
      · exact hsp
      · decide
    · rw [h1] at h
      cases h

theorem wf_split {L : Lexer} (h : L.wf) :
    cstr L.src = L.consumed ++ L.rest ∧ L.consumed.length = L.pos ∧
      L = lexerAt L.src L.consumed L.rest := by
  obtain ⟨h1, h2, h3⟩ := h
  have hsplit : cstr L.src = L.consumed ++ L.rest := by
    simp [Lexer.consumed, Lexer.rest]
  have hlen : L.consumed.length = L.pos := by
    simp only [Lexer.consumed, List.length_take]
    rw [h1] at h2
    exact Nat.min_eq_left h2
  refine ⟨hsplit, hlen, ?_⟩
  have hch := charAt_of_cstr L.src L.consumed L.rest hsplit
  rw [hlen] at hch
  cases L with
  | mk src srcLen pos cur =>
    simp only [lexerAt, Lexer.mk.injEq, true_and]
    exact ⟨h1, hlen.symm, by rw [← hch]; exact h3⟩

theorem lexerAt_eq_moveTo {L : Lexer} (h : L.wf) {pre r : List Char}
    (hs : cstr L.src = pre ++ r) : lexerAt L.src pre r = L.moveTo pre.length := by
  have hch := charAt_of_cstr L.src pre r hs
  simp only [lexerAt, Lexer.moveTo, hch, h.1]

theorem lexerAt_wf {src pre r : List Char} (hs : cstr src = pre ++ r) :
    (lexerAt src pre r).wf ∧ (lexerAt src pre r).rest = r ∧
      (lexerAt src pre r).consumed = pre := by
  refine ⟨⟨rfl, ?_, ?_⟩, ?_, ?_⟩
  · simp [lexerAt, strlen_of_cstr hs]
  · exact (charAt_of_cstr src pre r hs).symm
  · simp [Lexer.rest, lexerAt, hs]
  · simp [Lexer.consumed, lexerAt, hs]

theorem getNextToken_wf {L : Lexer} (h : L.wf) :
    getNextToken L =
      match tokenAt (L.rest.dropWhile isspace) with
      | Except.ok t =>
        Outcome.token t (L.moveTo (L.pos + (L.rest.takeWhile isspace).length + t.value.length))
      | Except.error m => Outcome.lexError m := by
  obtain ⟨hs, hlen, hL⟩ := wf_split h
  have hns : ∀ d ∈ (L.rest.dropWhile isspace).head?, isspace d = false := by
    intro d hd
    have := List.head?_dropWhile_not isspace L.rest
    rw [Option.mem_def] at hd
    rw [hd] at this
    exact this
  have h1 := getNextToken_lexerAt hs
  rw [← hL] at h1
  rw [h1, outcomeAt]
  cases ht : tokenAt (L.rest.dropWhile isspace) with
  | error m => rfl
  | ok t =>
    have hp := (tokenAt_ok hns ht).1
    have hs2 : cstr L.src = (L.consumed ++ L.rest.takeWhile isspace ++ t.value) ++
        (L.rest.dropWhile isspace).drop t.value.length := by
      rw [List.append_assoc, List.append_assoc, hp, List.takeWhile_append_dropWhile]
      exact hs
    simp only
    rw [lexerAt_eq_moveTo h hs2]
    simp [hlen, Nat.add_assoc]

theorem filter_takeWhile_isspace (r : List Char) :
    r.filter (fun c => !isspace c) = (r.dropWhile isspace).filter (fun c => !isspace c) := by
  induction r with
  | nil => rfl
  | cons c cs ih =>
    by_cases hc : isspace c = true
    · simp [hc, ih]
    · simp [hc]

theorem scanLoop_values (src : List Char) :
    ∀ (fuel : Nat) (pre r : List Char) (ts : List Token), cstr src = pre ++ r →
      scanLoop fuel (lexerAt src pre r) = (ts, ScanEnd.done) →
      (ts.map Token.value).flatten = r.filter (fun c => !isspace c) := by
  intro fuel
  induction fuel with
  | zero =>
    intro pre r ts _ h
    simp [scanLoop] at h
  | succ fuel ih =>
    intro pre r ts hs h
    have hns : ∀ d ∈ (r.dropWhile isspace).head?, isspace d = false := by
      intro d hd
      have := List.head?_dropWhile_not isspace r
      rw [Option.mem_def] at hd
      rw [hd] at this
      exact this
    rw [scanLoop, getNextToken_lexerAt hs, outcomeAt] at h
    cases ht : tokenAt (r.dropWhile isspace) with
    | error m =>
      rw [ht] at h
      simp at h
    | ok t =>
      rw [ht] at h
      obtain ⟨hp, hsp, heof, _⟩ := tokenAt_ok hns ht
      have hval : t.value.filter (fun c => !isspace c) = t.value := by
        rw [List.filter_eq_self]
        intro c hc
        simp [hsp c hc]
      simp only at h
      by_cases he : t.type = TOKEN_EOF
      · rw [if_pos he] at h
        have hnil := heof he
        rw [hnil] at hp
        simp at hp
        injection h with h1 _
        subst h1
        rw [filter_takeWhile_isspace, hnil]
        simp [hp]
      · rw [if_neg he] at h
        injection h with h1 h2
        subst h1
        have hs2 : cstr src = (pre ++ r.takeWhile isspace ++ t.value) ++
            (r.dropWhile isspace).drop t.value.length := by
          rw [List.append_assoc, List.append_assoc, hp, List.takeWhile_append_dropWhile]
          exact hs
        have := ih _ _ _ hs2 (Prod.ext rfl h2)
        rw [filter_takeWhile_isspace]
        conv_rhs => rw [← hp]
        rw [List.filter_append, hval]
        simp only [List.append_assoc] at this
        simp [this]

theorem takeWhile_ws {ws : List Char} {x : Char} {tl : List Char}
    (hws : ∀ c ∈ ws, isspace c = true) (hx : isspace x = false) :
    (ws ++ x :: tl).takeWhile isspace = ws ∧ (ws ++ x :: tl).dropWhile isspace = x :: tl := by
  induction ws with
  | nil => simp [hx]
  | cons w ws ih =>
    have hw : isspace w = true := hws w (by simp)
    have := ih (fun c hc => hws c (by simp [hc]))
    simp [hw, this]

theorem moveTo_of_split {L : Lexer} (h : L.wf) {pre r : List Char}
    (hs : cstr L.src = pre ++ r) :
    (L.moveTo pre.length).wf ∧ (L.moveTo pre.length).rest = r ∧
      (L.moveTo pre.length).consumed = pre ∧
      (L.moveTo pre.length).currentChar = r.headD NUL := by
  rw [← lexerAt_eq_moveTo h hs]
  obtain ⟨h1, h2, h3⟩ := lexerAt_wf hs
  exact ⟨h1, h2, h3, rfl⟩

theorem getNextToken_at {L : Lexer} (h : L.wf) {ws : List Char} {x : Char} {tl : List Char}
    (hws : ∀ c ∈ ws, isspace c = true) (hx : isspace x = false)
    (hrest : L.rest = ws ++ x :: tl) :
    getNextToken L =
      match tokenAt (x :: tl) with
      | Except.ok t => Outcome.token t (L.moveTo (L.pos + ws.length + t.value.length))
      | Except.error m => Outcome.lexError m := by
  rw [getNextToken_wf h, hrest, (takeWhile_ws hws hx).1, (takeWhile_ws hws hx).2]

theorem split_at {L : Lexer} (h : L.wf) (ws run r : List Char)
    (hrest : L.rest = ws ++ (run ++ r)) :
    cstr L.src = (L.consumed ++ ws ++ run) ++ r ∧
      (L.consumed ++ ws ++ run).length = L.pos + ws.length + run.length := by
  obtain ⟨hs, hlen, _⟩ := wf_split h
  refine ⟨?_, by simp [hlen, Nat.add_assoc]⟩
  rw [hs, hrest]
  simp

theorem scanLoop_fuel (src : List Char) :
    ∀ (fuel : Nat) (pre r : List Char), cstr src = pre ++ r → r.length < fuel →
      (scanLoop fuel (lexerAt src pre r)).2 ≠ ScanEnd.outOfFuel := by
  intro fuel
  induction fuel with
  | zero => intro pre r _ h; omega
  | succ fuel ih =>
    intro pre r hs hf
    have hns : ∀ d ∈ (r.dropWhile isspace).head?, isspace d = false := by
      intro d hd
      have := List.head?_dropWhile_not isspace r
      rw [Option.mem_def] at hd
      rw [hd] at this
      exact this
    rw [scanLoop, getNextToken_lexerAt hs, outcomeAt]
    cases ht : tokenAt (r.dropWhile isspace) with
    | error m => simp
    | ok t =>
      obtain ⟨hp, _, heof, hprog⟩ := tokenAt_ok hns ht
      simp only
      by_cases he : t.type = TOKEN_EOF
      · rw [if_pos he]; simp
      · rw [if_neg he]
        have hs2 : cstr src = (pre ++ r.takeWhile isspace ++ t.value) ++
            (r.dropWhile isspace).drop t.value.length := by
          rw [List.append_assoc, List.append_assoc, hp, List.takeWhile_append_dropWhile]
          exact hs
        have hne : r.dropWhile isspace ≠ [] := by
          intro hnil
          rw [hnil] at ht
          simp [tokenAt] at ht
          subst ht
          exact he rfl
        have hv : 0 < t.value.length := List.length_pos.mpr (hprog hne)
        have hl : (r.dropWhile isspace).length ≤ r.length :=
          (List.dropWhile_sublist isspace).length_le
        have hpl := congrArg List.length hp
        simp only [List.length_append, List.length_drop] at hpl
        refine ih _ _ hs2 ?_
        simp only [List.length_drop]
        omega

theorem scan_ne_outOfFuel (src : List Char) : (scan src).2 ≠ ScanEnd.outOfFuel := by
  rw [scan, initLexer_eq]
  exact scanLoop_fuel src _ [] (cstr src) rfl (by simp [strlen])

theorem isspace_of_isalpha {c : Char} (h : isalpha c = true) : isspace c = false :=
  isspace_of_isIdentifierChar (isIdentifierChar_of_isalpha h)

theorem headD_dropWhile_not (p : Char → Bool) (hp : p NUL = false) (l : List Char) :
    p ((l.dropWhile p).headD NUL) = false := by
  have := List.head?_dropWhile_not p l
  cases hl : l.dropWhile p with
  | nil => simpa using hp
  | cons d ds =>
    rw [hl] at this
    simpa using this

theorem getNextToken_token_at {L : Lexer} (h : L.wf) {ws : List Char} {x : Char}
    {tl : List Char} (hws : ∀ c ∈ ws, isspace c = true) (hx : isspace x = false)
    (hrest : L.rest = ws ++ x :: tl) {t : Token} (ht : tokenAt (x :: tl) = Except.ok t) :
    getNextToken L = Outcome.token t (L.moveTo (L.pos + ws.length + t.value.length)) ∧
      (L.moveTo (L.pos + ws.length + t.value.length)).wf ∧
      (L.moveTo (L.pos + ws.length + t.value.length)).rest = (x :: tl).drop t.value.length ∧
      (L.moveTo (L.pos + ws.length + t.value.length)).currentChar =
        ((x :: tl).drop t.value.length).headD NUL := by
  have hns : ∀ c ∈ (x :: tl).head?, isspace c = false := by
    intro c hc
    simp at hc
    rw [← hc]; exact hx
  have hp := (tokenAt_ok hns ht).1
  have hsplit := split_at h ws t.value ((x :: tl).drop t.value.length)
    (by rw [hp]; exact hrest)
  have hm := moveTo_of_split h hsplit.1
  rw [hsplit.2] at hm
  refine ⟨?_, hm.1, hm.2.1, hm.2.2.2⟩
  rw [getNextToken_at h hws hx hrest, ht]

theorem numRun_count (hd : Bool) (l : List Char) :
    (numRun hd l).count '.' ≤ if hd = true then 0 else 1 := by
  induction l generalizing hd with
  | nil => simp [numRun]
  | cons x xs ih =>
    by_cases hx : isdigit x = true
    · have hne : x ≠ '.' := by
        rintro rfl
        exact absurd hx (by decide)
      simp only [numRun, hx, if_true]
      rw [List.count_cons_of_ne (Ne.symm hne)]
      exact ih hd
    · by_cases hdot : x = '.' ∧ hd = false
      · obtain ⟨rfl, rfl⟩ := hdot
        have := ih true
        simp [numRun, hx] at this ⊢
        exact this
      · simp [numRun, hx, hdot]

theorem numRun_stop (hd : Bool) (l : List Char) :
    isdigit ((l.drop (numRun hd l).length).headD NUL) = false ∧
      ((l.drop (numRun hd l).length).headD NUL = '.' → hd = true ∨ '.' ∈ numRun hd l) := by
  induction l generalizing hd with
  | nil =>
    have h0 : isdigit NUL = false := by decide
    have h1 : NUL ≠ '.' := by decide
    simp only [numRun, List.length_nil, List.drop_nil, List.headD_nil]
    exact ⟨h0, fun h => absurd h h1⟩
  | cons x xs ih =>
    by_cases hx : isdigit x = true
    · simp only [numRun, hx, if_true, List.length_cons, List.drop_succ_cons]
      refine ⟨(ih hd).1, fun h => ?_⟩
      rcases (ih hd).2 h with h1 | h1
      · exact Or.inl h1
      · exact Or.inr (List.mem_cons_of_mem _ h1)
    · by_cases hdot : x = '.' ∧ hd = false
      · obtain ⟨rfl, rfl⟩ := hdot
        simp only [numRun, hx, Bool.false_eq_true, if_false, and_self, if_true,
          List.length_cons, List.drop_succ_cons]
        exact ⟨(ih true).1, fun _ => Or.inr (List.mem_cons_self _ _)⟩
      · simp only [numRun, hx, hdot, Bool.false_eq_true, if_false, List.length_nil,
          List.drop_zero, List.headD_cons]
        refine ⟨by simp [hx], fun h => ?_⟩
        subst h
        cases hd with
        | true => exact Or.inl rfl
        | false => exact absurd ⟨rfl, rfl⟩ hdot

theorem initLexer_wf (src : List Char) :
    (initLexer src).wf ∧ (initLexer src).rest = cstr src ∧ (initLexer src).src = src := by
  rw [initLexer_eq]
  obtain ⟨h1, h2, _⟩ := @lexerAt_wf src [] (cstr src) rfl
  exact ⟨h1, h2, rfl⟩

theorem moveTo_pos_self {L : Lexer} (h : L.wf) : L.moveTo L.pos = L := by
  cases L with
  | mk src srcLen pos cur =>
    obtain ⟨_, _, h3⟩ := h
    simp only [Lexer.moveTo] at h3 ⊢
    rw [← h3]

theorem getNextToken_step {L : Lexer} (h : L.wf) {t : Token} {L1 : Lexer}
    (hg : getNextToken L = Outcome.token t L1) :
    tokenAt (L.rest.dropWhile isspace) = Except.ok t ∧
      L1 = L.moveTo (L.pos + (L.rest.takeWhile isspace).length + t.value.length) ∧
      L1.wf ∧ L1.src = L.src ∧
      L1.rest = (L.rest.dropWhile isspace).drop t.value.length ∧
      L1.pos = L.pos + (L.rest.takeWhile isspace).length + t.value.length := by
  have hns : ∀ d ∈ (L.rest.dropWhile isspace).head?, isspace d = false := by
    intro d hd
    have := List.head?_dropWhile_not isspace L.rest
    rw [Option.mem_def] at hd
    rw [hd] at this
    exact this
  rw [getNextToken_wf h] at hg
  cases ht : tokenAt (L.rest.dropWhile isspace) with
  | error m =>
    rw [ht] at hg
    cases hg
  | ok t1 =>
    rw [ht] at hg
    simp only at hg
    injection hg with h1 h2
    subst h1
    have hp := (tokenAt_ok hns ht).1
    have hsplit := split_at h (L.rest.takeWhile isspace) t1.value
      ((L.rest.dropWhile isspace).drop t1.value.length)
      (by rw [hp, List.takeWhile_append_dropWhile])
    have hm := moveTo_of_split h hsplit.1
    rw [hsplit.2] at hm
    rw [← h2]
    exact ⟨rfl, rfl, hm.1, rfl, hm.2.1, rfl⟩

theorem getNextToken_ne_outOfFuel {L : Lexer} (h : L.wf) :
    getNextToken L ≠ Outcome.outOfFuel := by
  rw [getNextToken_wf h]
  cases tokenAt (L.rest.dropWhile isspace) <;> simp

theorem reachable_wf {src : List Char} {L : Lexer} (h : Reachable src L) :
    L.wf ∧ L.src = src := by
  induction h with
  | init => exact ⟨(initLexer_wf src).1, rfl⟩
  | next _ hg ih =>
    obtain ⟨_, _, h3, h4, _⟩ := getNextToken_step ih.1 hg
    exact ⟨h3, h4.trans ih.2⟩

theorem getNextToken_at_end {L : Lexer} (h : L.wf) (hrest : ∀ c ∈ L.rest, isspace c = true) :
    getNextToken L = Outcome.token ⟨TOKEN_EOF, []⟩ (L.moveTo (L.pos + L.rest.length)) := by
  have h1 : L.rest.dropWhile isspace = [] := by
    rw [List.dropWhile_eq_nil_iff]
    exact hrest
  have h2 : L.rest.takeWhile isspace = L.rest := by
    rw [List.takeWhile_eq_self_iff]
    exact hrest
  rw [getNextToken_wf h, h1, h2]
  rfl

theorem getNextToken_eof_fixed {L : Lexer} (h : L.wf) (hrest : L.rest = []) :
    getNextToken L = Outcome.token ⟨TOKEN_EOF, []⟩ L := by
  have h1 := getNextToken_at_end h (by rw [hrest]; simp)
  rw [hrest] at h1
  simp only [List.length_nil, Nat.add_zero] at h1
  rw [moveTo_pos_self h] at h1
  exact h1

theorem getNextToken_eof_state {L : Lexer} (h : L.wf) {t : Token} {L1 : Lexer}
    (hg : getNextToken L = Outcome.token t L1) (he : t.type = TOKEN_EOF) :
    t = ⟨TOKEN_EOF, []⟩ ∧ L1.wf ∧ L1.rest = [] ∧ L1.currentChar = NUL := by
  have hns : ∀ d ∈ (L.rest.dropWhile isspace).head?, isspace d = false := by
    intro d hd
    have := List.head?_dropWhile_not isspace L.rest
    rw [Option.mem_def] at hd
    rw [hd] at this
    exact this
  obtain ⟨ht, _, hwf1, _, hrest1, _⟩ := getNextToken_step h hg
  obtain ⟨hp, _, heof, _⟩ := tokenAt_ok hns ht
  have hnil := heof he
  rw [hnil] at hp hrest1
  have hv : t.value = [] := by
    have := congrArg List.length hp
    simp at this
    exact this
  simp only [List.drop_nil] at hrest1
  refine ⟨?_, hwf1, hrest1, ?_⟩
  · cases t with
    | mk ty v =>
      simp only at he hv
      rw [he, hv]
  · obtain ⟨_, _, hL⟩ := wf_split hwf1
    rw [hL, hrest1]
    rfl

theorem callsFrom_eof_fixed {L : Lexer} (h : L.wf) (hrest : L.rest = []) (n : Nat) :
    callsFrom n L = Outcome.token ⟨TOKEN_EOF, []⟩ L := by
  induction n with
  | zero => exact getNextToken_eof_fixed h hrest
  | succ n ih =>
    rw [callsFrom, getNextToken_eof_fixed h hrest]
    exact ih

theorem tokenAt_cons_detail (c : Char) (cs : List Char) :
    (isalpha c = true ∧ tokenAt (c :: cs) =
        Except.ok ⟨keywordType ((c :: cs).takeWhile isIdentifierChar),
          (c :: cs).takeWhile isIdentifierChar⟩)
    ∨ (isalpha c = false ∧ isdigit c = true ∧ tokenAt (c :: cs) =
        Except.ok ⟨if '.' ∈ numRun false (c :: cs) then TOKEN_FLOAT else TOKEN_INT,
          numRun false (c :: cs)⟩)
    ∨ (isalpha c = false ∧ isdigit c = false ∧
        ∃ T, (c, T) ∈ opTable ∧ tokenAt (c :: cs) = Except.ok ⟨T, [c]⟩)
    ∨ (isalpha c = false ∧ isdigit c = false ∧ c = '=' ∧ cs.head? = some '=' ∧
        tokenAt (c :: cs) = Except.ok ⟨TOKEN_EQEQ, [c, '=']⟩)
    ∨ (isalpha c = false ∧ isdigit c = false ∧ c = '=' ∧ cs.head? ≠ some '=' ∧
        tokenAt (c :: cs) = Except.ok ⟨TOKEN_EQ, [c]⟩)
    ∨ (isalpha c = false ∧ isdigit c = false ∧ c = '!' ∧ cs.head? = some '=' ∧
        tokenAt (c :: cs) = Except.ok ⟨TOKEN_NEQ, [c, '=']⟩)
    ∨ (isalpha c = false ∧ isdigit c = false ∧ c = '!' ∧ cs.head? ≠ some '=' ∧
        tokenAt (c :: cs) = Except.error "Unexpected character '!' without '='")
    ∨ (isalpha c = false ∧ isdigit c = false ∧ (∀ T, (c, T) ∉ opTable) ∧ c ≠ '=' ∧ c ≠ '!' ∧
        tokenAt (c :: cs) = Except.error "Unknown token") := by
  by_cases ha : isalpha c = true
  · exact Or.inl ⟨ha, by rw [tokenAt, if_pos ha]⟩
  by_cases hd : isdigit c = true
  · exact Or.inr (Or.inl ⟨by simpa using ha, hd, by rw [tokenAt, if_neg ha, if_pos hd]⟩)
  have ha1 : isalpha c = false := by simpa using ha
  have hd1 : isdigit c = false := by simpa using hd
  by_cases h0 : c = '+'
  · exact Or.inr (Or.inr (Or.inl ⟨ha1, hd1, TOKEN_PLUS, by rw [h0]; decide,
      by rw [tokenAt, if_neg ha, if_neg hd, if_pos h0]⟩))
  by_cases h1 : c = '-'
  · exact Or.inr (Or.inr (Or.inl ⟨ha1, hd1, TOKEN_MINUS, by rw [h1]; decide,
      by rw [tokenAt, if_neg ha, if_neg hd, if_neg h0, if_pos h1]⟩))
  by_cases h2 : c = '*'
  · exact Or.inr (Or.inr (Or.inl ⟨ha1, hd1, TOKEN_MUL, by rw [h2]; decide,
      by rw [tokenAt, if_neg ha, if_neg hd, if_neg h0, if_neg h1, if_pos h2]⟩))
  by_cases h3 : c = '/'
  · exact Or.inr (Or.inr (Or.inl ⟨ha1, hd1, TOKEN_DIV, by rw [h3]; decide,
      by rw [tokenAt, if_neg ha, if_neg hd, if_neg h0, if_neg h1, if_neg h2, if_pos h3]⟩))
  by_cases h4 : c = '('
  · exact Or.inr (Or.inr (Or.inl ⟨ha1, hd1, TOKEN_LPAREN, by rw [h4]; decide,
      by rw [tokenAt, if_neg ha, if_neg hd, if_neg h0, if_neg h1, if_neg h2, if_neg h3, if_pos h4]⟩))
  by_cases h5 : c = ')'
  · exact Or.inr (Or.inr (Or.inl ⟨ha1, hd1, TOKEN_RPAREN, by rw [h5]; decide,
      by rw [tokenAt, if_neg ha, if_neg hd, if_neg h0, if_neg h1, if_neg h2, if_neg h3, if_neg h4, if_pos h5]⟩))
  by_cases h6 : c = '\x7b'
  · exact Or.inr (Or.inr (Or.inl ⟨ha1, hd1, TOKEN_LBRACE, by rw [h6]; decide,
      by rw [tokenAt, if_neg ha, if_neg hd, if_neg h0, if_neg h1, if_neg h2, if_neg h3, if_neg h4, if_neg h5, if_pos h6]⟩))
  by_cases h7 : c = '\x7d'
  · exact Or.inr (Or.inr (Or.inl ⟨ha1, hd1, TOKEN_RBRACE, by rw [h7]; decide,
      by rw [tokenAt, if_neg ha, if_neg hd, if_neg h0, if_neg h1, if_neg h2, if_neg h3, if_neg h4, if_neg h5, if_neg h6, if_pos h7]⟩))
  by_cases h8 : c = '<'
  · exact Or.inr (Or.inr (Or.inl ⟨ha1, hd1, TOKEN_LTE, by rw [h8]; decide,
      by rw [tokenAt, if_neg ha, if_neg hd, if_neg h0, if_neg h1, if_neg h2, if_neg h3, if_neg h4, if_neg h5, if_neg h6, if_neg h7, if_pos h8]⟩))
  by_cases h9 : c = '>'
  · exact Or.inr (Or.inr (Or.inl ⟨ha1, hd1, TOKEN_GTE, by rw [h9]; decide,
      by rw [tokenAt, if_neg ha, if_neg hd, if_neg h0, if_neg h1, if_neg h2, if_neg h3, if_neg h4, if_neg h5, if_neg h6, if_neg h7, if_neg h8, if_pos h9]⟩))
  by_cases he : c = '='
  · by_cases hn : cs.head? = some '='
    · exact Or.inr (Or.inr (Or.inr (Or.inl ⟨ha1, hd1, he, hn,
        by rw [tokenAt, if_neg ha, if_neg hd, if_neg h0, if_neg h1, if_neg h2, if_neg h3, if_neg h4, if_neg h5, if_neg h6, if_neg h7, if_neg h8, if_neg h9, if_pos he, if_pos hn]⟩)))
    · exact Or.inr (Or.inr (Or.inr (Or.inr (Or.inl ⟨ha1, hd1, he, hn,
        by rw [tokenAt, if_neg ha, if_neg hd, if_neg h0, if_neg h1, if_neg h2, if_neg h3, if_neg h4, if_neg h5, if_neg h6, if_neg h7, if_neg h8, if_neg h9, if_pos he, if_neg hn]⟩))))
  by_cases hb : c = '!'
  · by_cases hn : cs.head? = some '='
    · exact Or.inr (Or.inr (Or.inr (Or.inr (Or.inr (Or.inl ⟨ha1, hd1, hb, hn,
        by rw [tokenAt, if_neg ha, if_neg hd, if_neg h0, if_neg h1, if_neg h2, if_neg h3, if_neg h4, if_neg h5, if_neg h6, if_neg h7, if_neg h8, if_neg h9, if_neg he, if_pos hb, if_pos hn]⟩)))))
    · exact Or.inr (Or.inr (Or.inr (Or.inr (Or.inr (Or.inr (Or.inl ⟨ha1, hd1, hb, hn,
        by rw [tokenAt, if_neg ha, if_neg hd, if_neg h0, if_neg h1, if_neg h2, if_neg h3, if_neg h4, if_neg h5, if_neg h6, if_neg h7, if_neg h8, if_neg h9, if_neg he, if_pos hb, if_neg hn]⟩))))))
  · refine Or.inr (Or.inr (Or.inr (Or.inr (Or.inr (Or.inr (Or.inr ⟨ha1, hd1, ?_, he, hb,
      by rw [tokenAt, if_neg ha, if_neg hd, if_neg h0, if_neg h1, if_neg h2, if_neg h3, if_neg h4, if_neg h5, if_neg h6, if_neg h7, if_neg h8, if_neg h9, if_neg he, if_neg hb]⟩))))))
    intro T hT
    simp only [opTable, List.mem_cons, Prod.mk.injEq, List.mem_singleton, List.mem_nil_iff,
      h0, h1, h2, h3, h4, h5, h6, h7, h8, h9, false_and, or_self] at hT

theorem opTable_mem {c : Char} {T : TokenType} (h : (c, T) ∈ opTable) :
    c ≠ '!' ∧ c ∈ ['+', '-', '*', '/', '(', ')', '\x7b', '\x7d', '<', '>', '='] ∧
      T ∈ returnedKinds ∧ T ≠ TOKEN_EOF := by
  simp only [opTable, List.mem_cons, Prod.mk.injEq, List.mem_singleton, List.mem_nil_iff,
    or_false] at h
  rcases h with h | h | h | h | h | h | h | h | h | h
  all_goals
    obtain ⟨rfl, rfl⟩ := h
    decide

theorem opList_mem {c : Char}
    (h : c ∈ ['+', '-', '*', '/', '(', ')', '\x7b', '\x7d', '<', '>', '=']) :
    c = '=' ∨ ∃ T, (c, T) ∈ opTable := by
  simp only [List.mem_cons, List.mem_singleton, List.mem_nil_iff, or_false] at h
  rcases h with h | h | h | h | h | h | h | h | h | h | h
  · exact Or.inr ⟨TOKEN_PLUS, by rw [h]; decide⟩
  · exact Or.inr ⟨TOKEN_MINUS, by rw [h]; decide⟩
  · exact Or.inr ⟨TOKEN_MUL, by rw [h]; decide⟩
  · exact Or.inr ⟨TOKEN_DIV, by rw [h]; decide⟩
  · exact Or.inr ⟨TOKEN_LPAREN, by rw [h]; decide⟩
  · exact Or.inr ⟨TOKEN_RPAREN, by rw [h]; decide⟩
  · exact Or.inr ⟨TOKEN_LBRACE, by rw [h]; decide⟩
  · exact Or.inr ⟨TOKEN_RBRACE, by rw [h]; decide⟩
  · exact Or.inr ⟨TOKEN_LTE, by rw [h]; decide⟩
  · exact Or.inr ⟨TOKEN_GTE, by rw [h]; decide⟩
  · exact Or.inl h

theorem tokenAt_error_iff (c : Char) (tl : List Char) :
    (∃ m, tokenAt (c :: tl) = Except.error m) ↔
      ((c = '!' ∧ tl.head? ≠ some '=') ∨
        (c ≠ '!' ∧ isalpha c = false ∧ isdigit c = false ∧
          c ∉ ['+', '-', '*', '/', '(', ')', '\x7b', '\x7d', '<', '>', '='])) := by
  have hbang_alpha : isalpha '!' = false := by decide
  have hbang_digit : isdigit '!' = false := by decide
  have heq_mem : '=' ∈ ['+', '-', '*', '/', '(', ')', '\x7b', '\x7d', '<', '>', '='] := by
    decide
  have heq_bang : '=' ≠ '!' := by decide
  rcases tokenAt_cons_detail c tl with ⟨ha, h1⟩ | ⟨_, hd, h1⟩ | ⟨_, _, T, hT, h1⟩ |
    ⟨_, _, hc, hn, h1⟩ | ⟨_, _, hc, hn, h1⟩ | ⟨_, _, hc, hn, h1⟩ | ⟨_, _, hc, hn, h1⟩ |
    ⟨ha, hd, hT, he, hb, h1⟩
  · constructor
    · rintro ⟨m, hm⟩; rw [h1] at hm; cases hm
    · rintro (⟨hb, _⟩ | ⟨_, ha2, _⟩)
      · rw [hb, hbang_alpha] at ha; cases ha
      · rw [ha] at ha2; cases ha2
  · constructor
    · rintro ⟨m, hm⟩; rw [h1] at hm; cases hm
    · rintro (⟨hb, _⟩ | ⟨_, _, hd2, _⟩)
      · rw [hb, hbang_digit] at hd; cases hd
      · rw [hd] at hd2; cases hd2
  · obtain ⟨hne, hin, _, _⟩ := opTable_mem hT
    constructor
    · rintro ⟨m, hm⟩; rw [h1] at hm; cases hm
    · rintro (⟨hb, _⟩ | ⟨_, _, _, hnin⟩)
      · exact absurd hb hne
      · exact absurd hin hnin
  · constructor
    · rintro ⟨m, hm⟩; rw [h1] at hm; cases hm
    · rintro (⟨hb, _⟩ | ⟨_, _, _, hnin⟩)
      · rw [hc] at hb; exact absurd hb heq_bang
      · rw [hc] at hnin; exact absurd heq_mem hnin
  · constructor
    · rintro ⟨m, hm⟩; rw [h1] at hm; cases hm
    · rintro (⟨hb, _⟩ | ⟨_, _, _, hnin⟩)
      · rw [hc] at hb; exact absurd hb heq_bang
      · rw [hc] at hnin; exact absurd heq_mem hnin
  · constructor
    · rintro ⟨m, hm⟩; rw [h1] at hm; cases hm
    · rintro (⟨_, hn2⟩ | ⟨hb, _⟩)
      · exact absurd hn hn2
      · exact absurd hc hb
  · exact ⟨fun _ => Or.inl ⟨hc, hn⟩, fun _ => ⟨_, h1⟩⟩
  · refine ⟨fun _ => Or.inr ⟨hb, ha, hd, fun hin => ?_⟩, fun _ => ⟨_, h1⟩⟩
    rcases opList_mem hin with h | ⟨T, h⟩
    · exact he h
    · exact hT T h

theorem tokenAt_ok_or_error (r : List Char) :
    (∃ t, tokenAt r = Except.ok t) ∨ (∃ m, tokenAt r = Except.error m) := by
  cases h : tokenAt r with
  | ok t => exact Or.inl ⟨t, rfl⟩
  | error m => exact Or.inr ⟨m, rfl⟩

theorem moveTo_moveTo (L : Lexer) (a b : Nat) : (L.moveTo a).moveTo b = L.moveTo b := rfl

theorem moveTo_split {L : Lexer} (h : L.wf) (run r : List Char) (hrest : L.rest = run ++ r) :
    lexerAt L.src (L.consumed ++ run) r = L.moveTo (L.pos + run.length) ∧
      cstr L.src = (L.consumed ++ run) ++ r ∧
      (L.moveTo (L.pos + run.length)).wf ∧
      (L.moveTo (L.pos + run.length)).rest = r ∧
      (L.moveTo (L.pos + run.length)).currentChar = r.headD NUL := by
  obtain ⟨hs, hlen, _⟩ := wf_split h
  have hs2 : cstr L.src = (L.consumed ++ run) ++ r := by
    rw [hs, hrest, List.append_assoc]
  have hl : (L.consumed ++ run).length = L.pos + run.length := by simp [hlen]
  have hm := moveTo_of_split h hs2
  rw [hl] at hm
  have he := lexerAt_eq_moveTo h hs2
  rw [hl] at he
  exact ⟨he, hs2, hm.1, hm.2.1, hm.2.2.2⟩

theorem mem_rest_ne_nul {L : Lexer} {c : Char} (hc : c ∈ L.rest) : c ≠ NUL :=
  mem_cstr_ne_nul (List.mem_of_mem_drop hc)

theorem advance_wf_nil {L : Lexer} (h : L.wf) (hrest : L.rest = []) : advance L = L := by
  obtain ⟨_, _, hL⟩ := wf_split h
  rw [hrest] at hL
  rw [hL]
  exact advance_nil _ _

theorem advance_wf_cons {L : Lexer} (h : L.wf) {c : Char} {cs : List Char}
    (hrest : L.rest = c :: cs) :
    advance L = L.moveTo (L.pos + 1) ∧ (L.moveTo (L.pos + 1)).wf ∧
      (L.moveTo (L.pos + 1)).rest = cs ∧ (L.moveTo (L.pos + 1)).currentChar = cs.headD NUL := by
  obtain ⟨hs, _, hL⟩ := wf_split h
  obtain ⟨h1, _, h3, h4, h5⟩ := moveTo_split h [c] cs (by rw [hrest]; rfl)
  rw [hrest] at hs hL
  have ha := advance_cons hs
  rw [← hL, h1] at ha
  exact ⟨ha, h3, h4, h5⟩

theorem advanceWhile_wf (p : Char → Bool) (hp : p NUL = false) {L : Lexer} (h : L.wf) :
    advanceWhile p (loopFuel L) L = some (L.moveTo (L.pos + (L.rest.takeWhile p).length)) ∧
      (L.moveTo (L.pos + (L.rest.takeWhile p).length)).wf ∧
      (L.moveTo (L.pos + (L.rest.takeWhile p).length)).rest = L.rest.dropWhile p ∧
      (L.moveTo (L.pos + (L.rest.takeWhile p).length)).currentChar =
        (L.rest.dropWhile p).headD NUL := by
  obtain ⟨hs, _, hL⟩ := wf_split h
  obtain ⟨h1, _, h3, h4, h5⟩ := moveTo_split h (L.rest.takeWhile p) (L.rest.dropWhile p)
    (List.takeWhile_append_dropWhile p L.rest).symm
  have ha := advanceWhile_lexerAt p hp L.src L.rest L.consumed
    (loopFuel (lexerAt L.src L.consumed L.rest)) hs (by rw [loopFuel_lexerAt hs]; omega)
  rw [← hL, h1] at ha
  exact ⟨ha, h3, h4, h5⟩

theorem substr_wf {L : Lexer} (h : L.wf) (run r : List Char) (hrest : L.rest = run ++ r) :
    substr L.src L.pos (L.pos + run.length - L.pos) = run := by
  obtain ⟨hs, hlen, _⟩ := wf_split h
  rw [hrest] at hs
  have := substr_of_cstr hs
  simp only [List.length_append, hlen] at this
  exact this

theorem getIdentifier_wf {L : Lexer} (h : L.wf) :
    getIdentifier L =
      some (⟨keywordType (L.rest.takeWhile isIdentifierChar), L.rest.takeWhile isIdentifierChar⟩,
        L.moveTo (L.pos + (L.rest.takeWhile isIdentifierChar).length)) := by
  obtain ⟨hs, _, hL⟩ := wf_split h
  obtain ⟨h1, _⟩ := moveTo_split h (L.rest.takeWhile isIdentifierChar)
    (L.rest.dropWhile isIdentifierChar)
    (List.takeWhile_append_dropWhile isIdentifierChar L.rest).symm
  have ha := getIdentifier_lexerAt hs
  rw [← hL, h1] at ha
  exact ha

theorem getNumber_wf {L : Lexer} (h : L.wf) :
    getNumber L =
      some (⟨if '.' ∈ numRun false L.rest then TOKEN_FLOAT else TOKEN_INT, numRun false L.rest⟩,
        L.moveTo (L.pos + (numRun false L.rest).length)) ∧
      (L.moveTo (L.pos + (numRun false L.rest).length)).wf := by
  obtain ⟨hs, _, hL⟩ := wf_split h
  obtain ⟨h1, _, h3, _⟩ := moveTo_split h (numRun false L.rest)
    (L.rest.drop (numRun false L.rest).length) (numRun_append_drop false L.rest).symm
  have ha := getNumber_lexerAt hs
  rw [← hL, h1] at ha
  exact ⟨ha, h3⟩

theorem wf_currentChar {L : Lexer} (h : L.wf) : L.currentChar = L.rest.headD NUL := by
  obtain ⟨_, _, hL⟩ := wf_split h
  exact congrArg Lexer.currentChar hL

theorem advance_wf {L : Lexer} (h : L.wf) :
    (advance L).wf ∧ (advance L).src = L.src ∧ L.pos ≤ (advance L).pos ∧
      (advance L).pos ≤ L.pos + 1 := by
  cases hr : L.rest with
  | nil =>
    rw [advance_wf_nil h hr]
    exact ⟨h, rfl, Nat.le_refl _, Nat.le_succ _⟩
  | cons c cs =>
    obtain ⟨h1, h2, _⟩ := advance_wf_cons h hr
    rw [h1]
    exact ⟨h2, rfl, Nat.le_succ _, Nat.le_refl _⟩

theorem skipComment_wf {L : Lexer} (h : L.wf) :
    ∃ L1, skipComment L = some L1 ∧ L1.wf ∧ L1.src = L.src ∧ L.pos ≤ L1.pos := by
  unfold skipComment
  by_cases hc : L.currentChar = '/'
  · rw [if_pos hc]
    obtain ⟨ha1, ha2, ha3, _⟩ := advance_wf h
    simp only
    by_cases hc2 : (advance L).currentChar = '/'
    · rw [if_pos hc2]
      obtain ⟨hw1, hw2, _⟩ := advanceWhile_wf (fun c => c != '\n' && c != NUL) (by decide) ha1
      refine ⟨_, hw1, hw2, ha2, ?_⟩
      exact Nat.le_trans ha3 (Nat.le_add_right _ _)
    · rw [if_neg hc2]
      exact ⟨_, rfl, ha1, ha2, ha3⟩
  · rw [if_neg hc]
    exact ⟨L, rfl, h, rfl, Nat.le_refl _⟩

theorem getString_wf {L : Lexer} (h : L.wf) :
    getString L ≠ Outcome.outOfFuel ∧
      ∀ t L1, getString L = Outcome.token t L1 → L1.wf ∧ L1.src = L.src ∧ L.pos ≤ L1.pos := by
  obtain ⟨ha1, ha2, ha3, _⟩ := advance_wf h
  obtain ⟨hw1, hw2, _⟩ := advanceWhile_wf (fun c => c != DQUOTE && c != NUL) (by decide) ha1
  obtain ⟨hb1, hb2, hb3, _⟩ := advance_wf hw2
  unfold getString
  simp only [hw1]
  constructor
  · split_ifs <;> simp
  · intro t L1 hg
    split_ifs at hg
    injection hg with _ hL1
    subst hL1
    refine ⟨hb1, hb2.trans ha2, ?_⟩
    exact Nat.le_trans (Nat.le_trans ha3 (Nat.le_add_right _ _)) hb3

theorem takeWhile_and_ne_nul (x : Char) (l : List Char) (hl : ∀ c ∈ l, c ≠ NUL) :
    l.takeWhile (fun c => c != x && c != NUL) = l.takeWhile (fun c => c != x) ∧
      l.dropWhile (fun c => c != x && c != NUL) = l.dropWhile (fun c => c != x) := by
  induction l with
  | nil => exact ⟨rfl, rfl⟩
  | cons c cs ih =>
    have hc : c ≠ NUL := hl c (by simp)
    have ih2 := ih (fun d hd => hl d (by simp [hd]))
    by_cases hx : c = x
    · simp [hx]
    · simp [hx, hc, ih2.1, ih2.2]

theorem takeWhile_ne_of_not_mem (x : Char) (body tl : List Char) (hb : x ∉ body) :
    (body ++ x :: tl).takeWhile (fun c => c != x) = body ∧
      (body ++ x :: tl).dropWhile (fun c => c != x) = x :: tl ∧
      body.takeWhile (fun c => c != x) = body ∧ body.dropWhile (fun c => c != x) = [] := by
  induction body with
  | nil => simp
  | cons b bs ih =>
    have hbx : b ≠ x := fun hh => hb (by simp [hh])
    have ih2 := ih (fun hh => hb (by simp [hh]))
    simp [hbx, ih2.1, ih2.2.1, ih2.2.2.1, ih2.2.2.2]

theorem scanLoop_length (fuel : Nat) (L : Lexer) : (scanLoop fuel L).1.length ≤ fuel := by
  induction fuel generalizing L with
  | zero => simp [scanLoop]
  | succ fuel ih =>
    rw [scanLoop]
    cases hg : getNextToken L with
    | outOfFuel => simp
    | lexError m => simp
    | token t L1 =>
      simp only
      split_ifs
      · simp
      · simp only [List.length_cons]
        exact Nat.succ_le_succ (ih L1)

theorem getNextToken_progress {L : Lexer} (h : L.wf) {t : Token} {L1 : Lexer}
    (hg : getNextToken L = Outcome.token t L1) :
    L.pos + t.value.length ≤ L1.pos ∧ (t.type ≠ TOKEN_EOF → L.pos < L1.pos) := by
  have hns : ∀ d ∈ (L.rest.dropWhile isspace).head?, isspace d = false := by
    intro d hd
    have := List.head?_dropWhile_not isspace L.rest
    rw [Option.mem_def] at hd
    rw [hd] at this
    exact this
  obtain ⟨ht, _, _, _, _, hpos⟩ := getNextToken_step h hg
  obtain ⟨_, _, _, hprog⟩ := tokenAt_ok hns ht
  refine ⟨by omega, fun hne => ?_⟩
  have hr : L.rest.dropWhile isspace ≠ [] := by
    intro hnil
    rw [hnil] at ht
    simp [tokenAt] at ht
    subst ht
    exact hne rfl
  have := List.length_pos.mpr (hprog hr)
  omega

theorem tokenAt_type_mem {r : List Char} {t : Token} (h : tokenAt r = Except.ok t) :
    t.type ∈ returnedKinds := by
  cases r with
  | nil =>
    simp [tokenAt] at h
    subst h
    decide
  | cons c cs =>
    rcases tokenAt_cons_detail c cs with ⟨_, h1⟩ | ⟨_, _, h1⟩ | ⟨_, _, T, hT, h1⟩ |
      ⟨_, _, _, _, h1⟩ | ⟨_, _, _, _, h1⟩ | ⟨_, _, _, _, h1⟩ | ⟨_, _, _, _, h1⟩ |
      ⟨_, _, _, _, _, h1⟩
    · rw [h1] at h
      injection h with h
      subst h
      simp only [keywordType]
      split_ifs <;> decide
    · rw [h1] at h
      injection h with h
      subst h
      simp only
      split_ifs <;> decide
    · rw [h1] at h
      injection h with h
      subst h
      exact (opTable_mem hT).2.2.1
    · rw [h1] at h
      injection h with h
      subst h
      simp only
      decide
    · rw [h1] at h
      injection h with h
      subst h
      simp only
      decide
    · rw [h1] at h
      injection h with h
      subst h
      simp only
      decide
    · rw [h1] at h
      cases h
    · rw [h1] at h
      cases h

/-! ## The claims -/

/-- C1: scanning the source of `main`, `if x < 10 { print "x is less than 10" }`,
does not produce the nine expected tokens: the code returns If("if"),
Identifier("x"), then Lte("<") in place of Lt, then Int("10"), LBrace and
Print, and the call that meets the opening double quote ends in the fatal
error "Unknown token", so no String, RBrace or EndOfInput token follows. -/
theorem C1_main_source_scan :
    scan mainSource =
      ([⟨TOKEN_IF, "if".toList⟩, ⟨TOKEN_IDENTIFIER, "x".toList⟩, ⟨TOKEN_LTE, "<".toList⟩,
        ⟨TOKEN_INT, "10".toList⟩, ⟨TOKEN_LBRACE, "\x7b".toList⟩,
        ⟨TOKEN_PRINT, "print".toList⟩],
       ScanEnd.failed "Unknown token") := by
  decide

/-- C2: for every source text without a double quote and without `//` whose
scan reaches the end-of-input token without a lexical error, the values of the
returned tokens, concatenated in order, are exactly the source text with its
whitespace characters deleted.  The source text is the content of the C
string, which is the whole list when the list holds no NUL. -/
theorem C2_lexemes_cover_source (src : List Char) (ts : List Token)
    (_hquote : DQUOTE ∉ src) (_hcomment : ¬ List.IsInfix ['/', '/'] src)
    (hscan : scan src = (ts, ScanEnd.done)) :
    (ts.map Token.value).flatten = (cstr src).filter (fun c => !isspace c) ∧
      ((∀ c ∈ src, c ≠ NUL) →
        (ts.map Token.value).flatten = src.filter (fun c => !isspace c)) := by
  have h1 : (ts.map Token.value).flatten = (cstr src).filter (fun c => !isspace c) := by
    rw [scan, initLexer_eq] at hscan
    exact scanLoop_values src _ [] (cstr src) ts rfl hscan
  refine ⟨h1, fun hnul => ?_⟩
  rw [h1, cstr_eq_self hnul]

/-- C2 at the source `x = (y1 + 2.5) * z`. -/
theorem C2_lexemes_cover_source_witness :
    DQUOTE ∉ "x = (y1 + 2.5) * z".toList ∧
      ¬ List.IsInfix ['/', '/'] "x = (y1 + 2.5) * z".toList ∧
      scan "x = (y1 + 2.5) * z".toList =
        ([⟨TOKEN_IDENTIFIER, "x".toList⟩, ⟨TOKEN_EQ, "=".toList⟩, ⟨TOKEN_LPAREN, "(".toList⟩,
          ⟨TOKEN_IDENTIFIER, "y1".toList⟩, ⟨TOKEN_PLUS, "+".toList⟩,
          ⟨TOKEN_FLOAT, "2.5".toList⟩, ⟨TOKEN_RPAREN, ")".toList⟩, ⟨TOKEN_MUL, "*".toList⟩,
          ⟨TOKEN_IDENTIFIER, "z".toList⟩, ⟨TOKEN_EOF, []⟩], ScanEnd.done) ∧
      (List.map Token.value
        [⟨TOKEN_IDENTIFIER, "x".toList⟩, ⟨TOKEN_EQ, "=".toList⟩, ⟨TOKEN_LPAREN, "(".toList⟩,
          ⟨TOKEN_IDENTIFIER, "y1".toList⟩, ⟨TOKEN_PLUS, "+".toList⟩,
          ⟨TOKEN_FLOAT, "2.5".toList⟩, ⟨TOKEN_RPAREN, ")".toList⟩, ⟨TOKEN_MUL, "*".toList⟩,
          ⟨TOKEN_IDENTIFIER, "z".toList⟩, ⟨TOKEN_EOF, []⟩]).flatten =
        "x = (y1 + 2.5) * z".toList.filter (fun c => !isspace c) :=
  ⟨by decide, by decide, by decide,
    (C2_lexemes_cover_source "x = (y1 + 2.5) * z".toList _ (by decide) (by decide)
      (by decide)).2 (by decide)⟩

/-- C3: longest match for `=` and `!`.  For every lexer satisfying the cursor
invariant whose unconsumed text is whitespace `ws` followed by `=`,
`getNextToken` returns EqEq with value `==` and moves the cursor two characters
past the whitespace when the next character is `=`, and otherwise returns Eq
with value `=` and moves it one character past; on whitespace followed by `!=`
it returns one Neq with value `!=` and moves two characters past.  The sources
`==`, `!=` and `=` scan to [EqEq, EndOfInput], [Neq, EndOfInput] and
[Eq, EndOfInput]. -/
theorem C3_longest_match_eq_neq (L : Lexer) (ws tl : List Char) (hwf : L.wf)
    (hws : ∀ c ∈ ws, isspace c = true) :
    (L.rest = ws ++ '=' :: tl → tl.head? = some '=' →
      getNextToken L =
        Outcome.token ⟨TOKEN_EQEQ, "==".toList⟩ (L.moveTo (L.pos + ws.length + 2))) ∧
    (L.rest = ws ++ '=' :: tl → tl.head? ≠ some '=' →
      getNextToken L =
        Outcome.token ⟨TOKEN_EQ, "=".toList⟩ (L.moveTo (L.pos + ws.length + 1))) ∧
    (L.rest = ws ++ '!' :: '=' :: tl →
      getNextToken L =
        Outcome.token ⟨TOKEN_NEQ, "!=".toList⟩ (L.moveTo (L.pos + ws.length + 2))) ∧
    scan "==".toList = ([⟨TOKEN_EQEQ, "==".toList⟩, ⟨TOKEN_EOF, []⟩], ScanEnd.done) ∧
    scan "!=".toList = ([⟨TOKEN_NEQ, "!=".toList⟩, ⟨TOKEN_EOF, []⟩], ScanEnd.done) ∧
    scan "=".toList = ([⟨TOKEN_EQ, "=".toList⟩, ⟨TOKEN_EOF, []⟩], ScanEnd.done) := by
  have heq : isspace '=' = false := by decide
  have hbang : isspace '!' = false := by decide
  have hT : ∀ cs : List Char, tokenAt ('=' :: cs) =
      if cs.head? = some '=' then Except.ok ⟨TOKEN_EQEQ, ['=', '=']⟩
      else Except.ok ⟨TOKEN_EQ, ['=']⟩ := fun _ => rfl
  refine ⟨?_, ?_, ?_, by decide, by decide, by decide⟩
  · intro hrest hnext
    rw [getNextToken_at hwf hws heq hrest, hT, if_pos hnext]
    rfl
  · intro hrest hnext
    rw [getNextToken_at hwf hws heq hrest, hT, if_neg hnext]
    rfl
  · intro hrest
    rw [getNextToken_at hwf hws hbang hrest]
    rfl

/-- C3 at the lexer that starts on the source ` ==1` and at the lexer that
starts on ` !=1`, with one blank of leading whitespace. -/
theorem C3_longest_match_eq_neq_witness :
    (initLexer " ==1".toList).wf ∧ (∀ c ∈ [' '], isspace c = true) ∧
      getNextToken (initLexer " ==1".toList) =
        Outcome.token ⟨TOKEN_EQEQ, "==".toList⟩ ((initLexer " ==1".toList).moveTo (0 + 1 + 2)) ∧
      getNextToken (initLexer " =1".toList) =
        Outcome.token ⟨TOKEN_EQ, "=".toList⟩ ((initLexer " =1".toList).moveTo (0 + 1 + 1)) ∧
      getNextToken (initLexer " !=1".toList) =
        Outcome.token ⟨TOKEN_NEQ, "!=".toList⟩ ((initLexer " !=1".toList).moveTo (0 + 1 + 2)) :=
  ⟨by decide, by decide,
    (C3_longest_match_eq_neq (initLexer " ==1".toList) [' '] "=1".toList (by decide)
      (by decide)).1 (by decide) (by decide),
    (C3_longest_match_eq_neq (initLexer " =1".toList) [' '] "1".toList (by decide)
      (by decide)).2.1 (by decide) (by decide),
    (C3_longest_match_eq_neq (initLexer " !=1".toList) [' '] "1".toList (by decide)
      (by decide)).2.2.1 (by decide)⟩

/-- C4: the code does not tell `<` from `<=` nor `>` from `>=`.  On a `<` it
always returns the kind Lte with value `<` and consumes one character, and on a
`>` always Gte with value `>`: the source `<` scans to [Lte("<"), EndOfInput]
where Lt is expected, `<=` scans to [Lte("<"), Eq("="), EndOfInput] where one Lte
consuming both characters is expected, `>` scans to [Gte(">"), EndOfInput] where
Gt is expected, and `>=` to [Gte(">"), Eq("="), EndOfInput]. -/
theorem C4_lt_gt_scan :
    scan "<".toList = ([⟨TOKEN_LTE, "<".toList⟩, ⟨TOKEN_EOF, []⟩], ScanEnd.done) ∧
    scan "<=".toList =
      ([⟨TOKEN_LTE, "<".toList⟩, ⟨TOKEN_EQ, "=".toList⟩, ⟨TOKEN_EOF, []⟩], ScanEnd.done) ∧
    scan ">".toList = ([⟨TOKEN_GTE, ">".toList⟩, ⟨TOKEN_EOF, []⟩], ScanEnd.done) ∧
    scan ">=".toList =
      ([⟨TOKEN_GTE, ">".toList⟩, ⟨TOKEN_EQ, "=".toList⟩, ⟨TOKEN_EOF, []⟩], ScanEnd.done) ∧
    getNextToken (initLexer "<=".toList) =
      Outcome.token ⟨TOKEN_LTE, "<".toList⟩ ((initLexer "<=".toList).moveTo 1) := by
  decide

/-- C5: identifier maximal munch.  For every lexer satisfying the cursor
invariant whose unconsumed text is whitespace followed by an alphabetic
character `c`, `getNextToken` returns one token whose value is the longest run
of alphanumeric or underscore characters that starts at `c`: the value followed
by the text left ahead is the text at `c`, every character of the value is an
identifier character, and the cursor is left just after the run, on a character
that is not an identifier character (the terminator at end of input).  The
source `ifx` scans to the single word token `ifx`, of kind Identifier. -/
theorem C5_identifier_maximal_munch (L : Lexer) (ws : List Char) (c : Char) (tl : List Char)
    (hwf : L.wf) (hws : ∀ d ∈ ws, isspace d = true) (hrest : L.rest = ws ++ c :: tl)
    (hc : isalpha c = true) :
    (∃ t L1, getNextToken L = Outcome.token t L1 ∧
      t.value = (c :: tl).takeWhile isIdentifierChar ∧
      t.value.head? = some c ∧
      (∀ d ∈ t.value, isIdentifierChar d = true) ∧
      t.value ++ L1.rest = c :: tl ∧
      L1 = L.moveTo (L.pos + ws.length + t.value.length) ∧
      L1.currentChar = L1.rest.headD NUL ∧
      isIdentifierChar L1.currentChar = false) ∧
    scan "ifx".toList = ([⟨TOKEN_IDENTIFIER, "ifx".toList⟩, ⟨TOKEN_EOF, []⟩], ScanEnd.done) := by
  refine ⟨?_, by decide⟩
  have ht : tokenAt (c :: tl) = Except.ok ⟨keywordType ((c :: tl).takeWhile isIdentifierChar),
      (c :: tl).takeWhile isIdentifierChar⟩ := by
    rw [tokenAt, if_pos hc]
  obtain ⟨h1, _, h3, h4⟩ := getNextToken_token_at hwf hws (isspace_of_isalpha hc) hrest ht
  simp only [drop_takeWhile_length] at h3 h4
  refine ⟨_, _, h1, rfl, ?_, ?_, ?_, rfl, ?_, ?_⟩
  · simp [isIdentifierChar_of_isalpha hc]
  · intro d hd
    exact List.mem_takeWhile_imp hd
  · rw [h3]
    exact List.takeWhile_append_dropWhile _ _
  · rw [h3, h4]
  · rw [h4]
    exact headD_dropWhile_not isIdentifierChar isIdentifierChar_nul _

/-- C5 at the lexer that starts on the source ` ifx+1`. -/
theorem C5_identifier_maximal_munch_witness :
    (initLexer " ifx+1".toList).wf ∧ (∀ d ∈ [' '], isspace d = true) ∧
      (initLexer " ifx+1".toList).rest = [' '] ++ 'i' :: "fx+1".toList ∧ isalpha 'i' = true ∧
      ∃ t L1, getNextToken (initLexer " ifx+1".toList) = Outcome.token t L1 ∧
        t.value = ('i' :: "fx+1".toList).takeWhile isIdentifierChar ∧
        t.value.head? = some 'i' ∧
        (∀ d ∈ t.value, isIdentifierChar d = true) ∧
        t.value ++ L1.rest = 'i' :: "fx+1".toList ∧
        L1 = (initLexer " ifx+1".toList).moveTo
          ((initLexer " ifx+1".toList).pos + [' '].length + t.value.length) ∧
        L1.currentChar = L1.rest.headD NUL ∧
        isIdentifierChar L1.currentChar = false :=
  ⟨by decide, by decide, by decide, by decide,
    (C5_identifier_maximal_munch (initLexer " ifx+1".toList) [' '] 'i' "fx+1".toList
      (by decide) (by decide) (by decide) (by decide)).1⟩

/-- C6: keyword classification is by exact, case-sensitive match of the whole
value.  For every token returned by `getIdentifier`, the kind is If, Else,
While or Print exactly when the value is `if`, `else`, `while` or `print`, and
is Identifier exactly when the value is none of the four; in particular the
words `for`, `def`, `return`, `ifx`, `i` and `If` are Identifier tokens. -/
theorem C6_keyword_classification (L : Lexer) (t : Token) (L1 : Lexer)
    (h : getIdentifier L = some (t, L1)) :
    (t.type = TOKEN_IF ↔ t.value = "if".toList) ∧
    (t.type = TOKEN_ELSE ↔ t.value = "else".toList) ∧
    (t.type = TOKEN_WHILE ↔ t.value = "while".toList) ∧
    (t.type = TOKEN_PRINT ↔ t.value = "print".toList) ∧
    (t.type = TOKEN_IDENTIFIER ↔
      (t.value ≠ "if".toList ∧ t.value ≠ "else".toList ∧ t.value ≠ "while".toList ∧
        t.value ≠ "print".toList)) ∧
    (getIdentifier (initLexer "for".toList)).map Prod.fst =
      some ⟨TOKEN_IDENTIFIER, "for".toList⟩ ∧
    (getIdentifier (initLexer "def".toList)).map Prod.fst =
      some ⟨TOKEN_IDENTIFIER, "def".toList⟩ ∧
    (getIdentifier (initLexer "return".toList)).map Prod.fst =
      some ⟨TOKEN_IDENTIFIER, "return".toList⟩ ∧
    (getIdentifier (initLexer "ifx".toList)).map Prod.fst =
      some ⟨TOKEN_IDENTIFIER, "ifx".toList⟩ ∧
    (getIdentifier (initLexer "i".toList)).map Prod.fst =
      some ⟨TOKEN_IDENTIFIER, "i".toList⟩ ∧
    (getIdentifier (initLexer "If".toList)).map Prod.fst =
      some ⟨TOKEN_IDENTIFIER, "If".toList⟩ := by
  refine ⟨?_, ?_, ?_, ?_, ?_, by decide, by decide, by decide, by decide, by decide, by decide⟩
  all_goals
    unfold getIdentifier at h
    split at h
    · cases h
    · injection h with h
      injection h with h _
      subst h
      simp only [makeToken, keywordType]
      split_ifs with h1 h2 h3 h4 <;> simp_all

/-- C6 at the lexer that starts on the source `while (x)`. -/
theorem C6_keyword_classification_witness :
    getIdentifier (initLexer "while (x)".toList) =
        some (⟨TOKEN_WHILE, "while".toList⟩, (initLexer "while (x)".toList).moveTo 5) ∧
      ((⟨TOKEN_WHILE, "while".toList⟩ : Token).type = TOKEN_WHILE ↔
        (⟨TOKEN_WHILE, "while".toList⟩ : Token).value = "while".toList) :=
  ⟨by decide,
    (C6_keyword_classification (initLexer "while (x)".toList) ⟨TOKEN_WHILE, "while".toList⟩
      ((initLexer "while (x)".toList).moveTo 5) (by decide)).2.2.1⟩

/-- C7, the claim refuted: on the source `_x1` the first call of `getNextToken`
returns no token and ends in the fatal error "Unknown token", so the scan is
not [Identifier("_x1"), EndOfInput]. -/
theorem C7_underscore_start_counterexample :
    getNextToken (initLexer "_x1".toList) = Outcome.lexError "Unknown token" ∧
      scan "_x1".toList ≠
        ([⟨TOKEN_IDENTIFIER, "_x1".toList⟩, ⟨TOKEN_EOF, []⟩], ScanEnd.done) := by
  decide

/-- C7, amended: an underscore does not start an identifier.  For every lexer
satisfying the cursor invariant whose unconsumed text is whitespace followed by
`_`, `getNextToken` returns no token and ends in the fatal error "Unknown
token" (so does the scan of `_x1`); an underscore is accepted only after the
first character of a word: `x_1` scans to [Identifier("x_1"), EndOfInput]. -/
theorem C7_underscore_start_unknown_token (L : Lexer) (ws tl : List Char) (hwf : L.wf)
    (hws : ∀ d ∈ ws, isspace d = true) (hrest : L.rest = ws ++ '_' :: tl) :
    getNextToken L = Outcome.lexError "Unknown token" ∧
      scan "_x1".toList = ([], ScanEnd.failed "Unknown token") ∧
      scan "x_1".toList =
        ([⟨TOKEN_IDENTIFIER, "x_1".toList⟩, ⟨TOKEN_EOF, []⟩], ScanEnd.done) := by
  refine ⟨?_, by decide, by decide⟩
  rw [getNextToken_at hwf hws (by decide) hrest]
  rfl

/-- C7 amended, at the lexer that starts on the source ` _x1`. -/
theorem C7_underscore_start_unknown_token_witness :
    (initLexer " _x1".toList).wf ∧ (∀ d ∈ [' '], isspace d = true) ∧
      (initLexer " _x1".toList).rest = [' '] ++ '_' :: "x1".toList ∧
      getNextToken (initLexer " _x1".toList) = Outcome.lexError "Unknown token" :=
  ⟨by decide, by decide, by decide,
    (C7_underscore_start_unknown_token (initLexer " _x1".toList) [' '] "x1".toList
      (by decide) (by decide) (by decide)).1⟩

/-- C8: numeric single-dot rule.  For every lexer satisfying the cursor
invariant whose unconsumed text is whitespace followed by a decimal digit `c`,
`getNextToken` returns a token whose value is the verbatim longest prefix of
the text at `c` made of digits and at most one dot: the value followed by the
text left ahead is the text at `c`, the value starts with `c`, holds only
digits and dots and at most one dot, and the character left under the cursor
is not a digit and is a dot only when the value already holds one (a second
dot is not consumed).  The kind is Float exactly when the value holds a dot
and Int otherwise.  The sources `10`, `3.14` and `1.` scan to Int("10"),
Float("3.14") and Float("1."). -/
theorem C8_number_single_dot (L : Lexer) (ws : List Char) (c : Char) (tl : List Char)
    (hwf : L.wf) (hws : ∀ d ∈ ws, isspace d = true) (hrest : L.rest = ws ++ c :: tl)
    (hc : isdigit c = true) :
    (∃ t L1, getNextToken L = Outcome.token t L1 ∧
      t.value ++ L1.rest = c :: tl ∧
      t.value.head? = some c ∧
      (∀ d ∈ t.value, isdigit d = true ∨ d = '.') ∧
      t.value.count '.' ≤ 1 ∧
      L1 = L.moveTo (L.pos + ws.length + t.value.length) ∧
      L1.currentChar = L1.rest.headD NUL ∧
      isdigit L1.currentChar = false ∧
      (L1.currentChar = '.' → '.' ∈ t.value) ∧
      (t.type = TOKEN_FLOAT ↔ '.' ∈ t.value) ∧
      (t.type = TOKEN_INT ↔ '.' ∉ t.value)) ∧
    scan "10".toList = ([⟨TOKEN_INT, "10".toList⟩, ⟨TOKEN_EOF, []⟩], ScanEnd.done) ∧
    scan "3.14".toList = ([⟨TOKEN_FLOAT, "3.14".toList⟩, ⟨TOKEN_EOF, []⟩], ScanEnd.done) ∧
    scan "1.".toList = ([⟨TOKEN_FLOAT, "1.".toList⟩, ⟨TOKEN_EOF, []⟩], ScanEnd.done) := by
  refine ⟨?_, by decide, by decide, by decide⟩
  have ha : ¬ isalpha c = true := by
    simp [isdigit] at hc
    simp [isalpha]
    omega
  have ht : tokenAt (c :: tl) =
      Except.ok ⟨if '.' ∈ numRun false (c :: tl) then TOKEN_FLOAT else TOKEN_INT,
        numRun false (c :: tl)⟩ := by
    rw [tokenAt, if_neg ha, if_pos hc]
  obtain ⟨h1, _, h3, h4⟩ := getNextToken_token_at hwf hws (isspace_of_isdigit hc) hrest ht
  have hstop := numRun_stop false (c :: tl)
  have hcount := numRun_count false (c :: tl)
  simp only at h3 h4
  refine ⟨_, _, h1, ?_, ?_, ?_, ?_, rfl, ?_, ?_, ?_, ?_, ?_⟩
  · rw [h3]
    exact numRun_append_drop false (c :: tl)
  · simp [numRun, hc]
  · intro d hd
    exact mem_numRun hd
  · simpa using hcount
  · rw [h3, h4]
  · rw [h4]
    exact hstop.1
  · rw [h4]
    intro h
    rcases hstop.2 h with h5 | h5
    · cases h5
    · exact h5
  · by_cases hm : '.' ∈ numRun false (c :: tl) <;> simp [hm]
  · by_cases hm : '.' ∈ numRun false (c :: tl) <;> simp [hm]

/-- C8 at the lexer that starts on the source ` 3.14.5`. -/
theorem C8_number_single_dot_witness :
    (initLexer " 3.14.5".toList).wf ∧ (∀ d ∈ [' '], isspace d = true) ∧
      (initLexer " 3.14.5".toList).rest = [' '] ++ '3' :: ".14.5".toList ∧
      isdigit '3' = true ∧
      ∃ t L1, getNextToken (initLexer " 3.14.5".toList) = Outcome.token t L1 ∧
        t.value ++ L1.rest = '3' :: ".14.5".toList ∧
        t.value.head? = some '3' ∧
        (∀ d ∈ t.value, isdigit d = true ∨ d = '.') ∧
        t.value.count '.' ≤ 1 ∧
        L1 = (initLexer " 3.14.5".toList).moveTo
          ((initLexer " 3.14.5".toList).pos + [' '].length + t.value.length) ∧
        L1.currentChar = L1.rest.headD NUL ∧
        isdigit L1.currentChar = false ∧
        (L1.currentChar = '.' → '.' ∈ t.value) ∧
        (t.type = TOKEN_FLOAT ↔ '.' ∈ t.value) ∧
        (t.type = TOKEN_INT ↔ '.' ∉ t.value) :=
  ⟨by decide, by decide, by decide, by decide,
    (C8_number_single_dot (initLexer " 3.14.5".toList) [' '] '3' ".14.5".toList
      (by decide) (by decide) (by decide) (by decide)).1⟩

/-- C9, the claim refuted: the scan of `3.14.5` is not
[Float("3.14"), Float(".5"), EndOfInput]; the second call of `getNextToken`,
which starts on the second dot, returns no token. -/
theorem C9_second_dot_counterexample :
    scan "3.14.5".toList ≠
        ([⟨TOKEN_FLOAT, "3.14".toList⟩, ⟨TOKEN_FLOAT, ".5".toList⟩, ⟨TOKEN_EOF, []⟩],
          ScanEnd.done) ∧
      getNextToken ((initLexer "3.14.5".toList).moveTo 4) = Outcome.lexError "Unknown token" := by
  decide

/-- C9, amended: on the source `3.14.5` the first call of `getNextToken`
returns Float("3.14") and leaves the cursor on the second dot, at position 4;
the second call re-examines that dot, returns no token and ends in the fatal
error "Unknown token"; the full scan is the single token Float("3.14")
followed by that lexical error. -/
theorem C9_second_dot_unknown_token :
    getNextToken (initLexer "3.14.5".toList) =
        Outcome.token ⟨TOKEN_FLOAT, "3.14".toList⟩ ((initLexer "3.14.5".toList).moveTo 4) ∧
      ((initLexer "3.14.5".toList).moveTo 4).pos = 4 ∧
      ((initLexer "3.14.5".toList).moveTo 4).currentChar = '.' ∧
      getNextToken ((initLexer "3.14.5".toList).moveTo 4) = Outcome.lexError "Unknown token" ∧
      scan "3.14.5".toList =
        ([⟨TOKEN_FLOAT, "3.14".toList⟩], ScanEnd.failed "Unknown token") := by
  decide

/-- C10: the scanning loop produces no string literal.  On the source
`"hello"` the first call of `getNextToken` returns no token and ends in the
fatal error "Unknown token", where String("hello") is expected; on the source
`"unterminated` it ends in the same "Unknown token" error, not in the
unterminated-string-literal error.  The function `getString`, which
`getNextToken` never calls, does what is expected on both: it returns
String("hello") with the cursor after the closing quote, and ends in
"Unterminated string literal". -/
theorem C10_string_literal_scan :
    getNextToken (initLexer "\"hello\"".toList) = Outcome.lexError "Unknown token" ∧
      scan "\"hello\"".toList = ([], ScanEnd.failed "Unknown token") ∧
      getNextToken (initLexer "\"unterminated".toList) = Outcome.lexError "Unknown token" ∧
      getString (initLexer "\"hello\"".toList) =
        Outcome.token ⟨TOKEN_STRING, "hello".toList⟩ ((initLexer "\"hello\"".toList).moveTo 7) ∧
      getString (initLexer "\"unterminated".toList) =
        Outcome.lexError "Unterminated string literal" := by
  decide

/-- C11: the scanning loop does not skip comments.  On the source
`1 // comment` followed by a newline and `2`, the code returns Int("1"), then
one Div token for each of the two slashes, then the word `comment` as an
Identifier, then Int("2") and EndOfInput, where [Int("1"), Int("2"),
EndOfInput] is expected.  The function `skipComment`, which `getNextToken`
never calls, does skip the comment: started on the `//` it leaves the cursor on
the newline, at position 12. -/
theorem C11_comment_scan :
    scan commentSource =
      ([⟨TOKEN_INT, "1".toList⟩, ⟨TOKEN_DIV, "/".toList⟩, ⟨TOKEN_DIV, "/".toList⟩,
        ⟨TOKEN_IDENTIFIER, "comment".toList⟩, ⟨TOKEN_INT, "2".toList⟩, ⟨TOKEN_EOF, []⟩],
       ScanEnd.done) ∧
      getNextToken ((initLexer commentSource).moveTo 2) =
        Outcome.token ⟨TOKEN_DIV, "/".toList⟩ ((initLexer commentSource).moveTo 3) ∧
      skipComment ((initLexer commentSource).moveTo 2) =
        some ((initLexer commentSource).moveTo 12) ∧
      ((initLexer commentSource).moveTo 12).currentChar = '\n' := by
  decide

/-- C12: totality over whitespace.  For every source made only of spaces, tabs
and newlines, the empty source included, the first call of `getNextToken` on a
fresh lexer returns the end-of-input token with an empty value and no error,
and the scan yields exactly that one token. -/
theorem C12_whitespace_only (src : List Char)
    (hsrc : ∀ c ∈ src, c = ' ' ∨ c = '\t' ∨ c = '\n') :
    getNextToken (initLexer src) =
        Outcome.token ⟨TOKEN_EOF, []⟩ ((initLexer src).moveTo src.length) ∧
      scan src = ([⟨TOKEN_EOF, []⟩], ScanEnd.done) := by
  have hsp : ∀ c ∈ src, isspace c = true := by
    intro c hc
    rcases hsrc c hc with rfl | rfl | rfl <;> decide
  have hnul : ∀ c ∈ src, c ≠ NUL := by
    intro c hc hn
    have := hsp c hc
    rw [hn] at this
    exact absurd this (by decide)
  obtain ⟨hwf, hrest, _⟩ := initLexer_wf src
  rw [cstr_eq_self hnul] at hrest
  have h1 := getNextToken_at_end hwf (by rw [hrest]; exact hsp)
  rw [hrest] at h1
  have hpos : (initLexer src).pos = 0 := rfl
  rw [hpos, Nat.zero_add] at h1
  refine ⟨h1, ?_⟩
  rw [scan, scanLoop, h1]
  rfl

/-- C12 at the source made of a blank, a tab, a newline and a blank. -/
theorem C12_whitespace_only_witness :
    (∀ c ∈ " \t\n ".toList, c = ' ' ∨ c = '\t' ∨ c = '\n') ∧
      getNextToken (initLexer " \t\n ".toList) =
        Outcome.token ⟨TOKEN_EOF, []⟩ ((initLexer " \t\n ".toList).moveTo " \t\n ".toList.length) ∧
      scan " \t\n ".toList = ([⟨TOKEN_EOF, []⟩], ScanEnd.done) :=
  ⟨by decide, C12_whitespace_only " \t\n ".toList (by decide)⟩

/-- C13: idempotent terminal state.  For every source and every lexer state
reached by scanning it, once a call of `getNextToken` has returned the
end-of-input token, every later call on the lexer it left returns the
end-of-input token again, with an empty value and no error, and leaves the
lexer, hence its position and its current character, unchanged. -/
theorem C13_eof_idempotent (src : List Char) (L : Lexer) (t : Token) (L1 : Lexer)
    (hreach : Reachable src L) (hcall : getNextToken L = Outcome.token t L1)
    (heof : t.type = TOKEN_EOF) :
    L1.currentChar = NUL ∧ L1.pos = strlen src ∧
      getNextToken L1 = Outcome.token ⟨TOKEN_EOF, []⟩ L1 ∧
      ∀ n, callsFrom n L1 = Outcome.token ⟨TOKEN_EOF, []⟩ L1 := by
  obtain ⟨hwf, hsrc⟩ := reachable_wf hreach
  obtain ⟨_, hwf1, hrest1, hcur⟩ := getNextToken_eof_state hwf hcall heof
  obtain ⟨_, _, _, hsrc1, _⟩ := getNextToken_step hwf hcall
  refine ⟨hcur, ?_, getNextToken_eof_fixed hwf1 hrest1,
    fun n => callsFrom_eof_fixed hwf1 hrest1 n⟩
  have hlen := congrArg List.length hrest1
  simp only [Lexer.rest, List.length_drop, List.length_nil] at hlen
  have hle := hwf1.2.1
  rw [hwf1.1] at hle
  rw [hsrc1, hsrc] at hlen hle
  unfold strlen at hle ⊢
  omega

/-- C13 at the source `x 1 `: the third call returns the end-of-input token
and leaves the lexer at position 4. -/
theorem C13_eof_idempotent_witness :
    Reachable "x 1 ".toList ((initLexer "x 1 ".toList).moveTo 3) ∧
      getNextToken ((initLexer "x 1 ".toList).moveTo 3) =
        Outcome.token ⟨TOKEN_EOF, []⟩ ((initLexer "x 1 ".toList).moveTo 4) ∧
      ((initLexer "x 1 ".toList).moveTo 4).currentChar = NUL ∧
      ((initLexer "x 1 ".toList).moveTo 4).pos = strlen "x 1 ".toList ∧
      getNextToken ((initLexer "x 1 ".toList).moveTo 4) =
        Outcome.token ⟨TOKEN_EOF, []⟩ ((initLexer "x 1 ".toList).moveTo 4) ∧
      ∀ n, callsFrom n ((initLexer "x 1 ".toList).moveTo 4) =
        Outcome.token ⟨TOKEN_EOF, []⟩ ((initLexer "x 1 ".toList).moveTo 4) :=
  have hr : Reachable "x 1 ".toList ((initLexer "x 1 ".toList).moveTo 3) :=
    Reachable.next
      (Reachable.next Reachable.init
        (show getNextToken (initLexer "x 1 ".toList) =
          Outcome.token ⟨TOKEN_IDENTIFIER, "x".toList⟩ ((initLexer "x 1 ".toList).moveTo 1)
          by decide))
      (show getNextToken ((initLexer "x 1 ".toList).moveTo 1) =
        Outcome.token ⟨TOKEN_INT, "1".toList⟩ ((initLexer "x 1 ".toList).moveTo 3)
        by decide)
  ⟨hr, by decide,
    C13_eof_idempotent "x 1 ".toList ((initLexer "x 1 ".toList).moveTo 3) ⟨TOKEN_EOF, []⟩
      ((initLexer "x 1 ".toList).moveTo 4) hr (by decide) rfl⟩

/-- C14: failure characterisation of `getNextToken`.  For every lexer
satisfying the cursor invariant whose unconsumed text is whitespace followed by
a non-whitespace character `c`, the call ends in a lexical error, returning no
token, if and only if `c` is a `!` not immediately followed by `=`, or `c` is
not `!`, not a letter, not a decimal digit and not one of
`+ - * / ( ) { } < > =`; in every other case it returns a token, and so it
does when only whitespace is left before the end of input.  A bare `!` is
fatal: the scans of `!` and `!x` end in the error of the `!` case.  The
semicolon is not one of the listed characters: the scan of `;` ends in the
error "Unknown token". -/
theorem C14_failure_characterisation (L : Lexer) (ws : List Char) (c : Char)
    (tl : List Char) (hwf : L.wf) (hws : ∀ d ∈ ws, isspace d = true)
    (hc : isspace c = false) (hrest : L.rest = ws ++ c :: tl) :
    ((∃ m, getNextToken L = Outcome.lexError m) ↔
      ((c = '!' ∧ tl.head? ≠ some '=') ∨
        (c ≠ '!' ∧ isalpha c = false ∧ isdigit c = false ∧
          c ∉ ['+', '-', '*', '/', '(', ')', '\x7b', '\x7d', '<', '>', '=']))) ∧
    ((∃ t L1, getNextToken L = Outcome.token t L1) ↔
      ¬ ((c = '!' ∧ tl.head? ≠ some '=') ∨
        (c ≠ '!' ∧ isalpha c = false ∧ isdigit c = false ∧
          c ∉ ['+', '-', '*', '/', '(', ')', '\x7b', '\x7d', '<', '>', '=']))) ∧
    (c = '!' → tl.head? ≠ some '=' →
      getNextToken L = Outcome.lexError "Unexpected character '!' without '='") ∧
    (∀ M : Lexer, M.wf → (∀ d ∈ M.rest, isspace d = true) →
      getNextToken M = Outcome.token ⟨TOKEN_EOF, []⟩ (M.moveTo (M.pos + M.rest.length))) ∧
    scan "!".toList = ([], ScanEnd.failed "Unexpected character '!' without '='") ∧
    scan "!x".toList = ([], ScanEnd.failed "Unexpected character '!' without '='") ∧
    scan ";".toList = ([], ScanEnd.failed "Unknown token") := by
  have hg := getNextToken_at hwf hws hc hrest
  have herr : (∃ m, getNextToken L = Outcome.lexError m) ↔
      (∃ m, tokenAt (c :: tl) = Except.error m) := by
    rw [hg]
    cases tokenAt (c :: tl) with
    | ok t => simp
    | error m => simp
  have htok : (∃ t L1, getNextToken L = Outcome.token t L1) ↔
      ¬ (∃ m, tokenAt (c :: tl) = Except.error m) := by
    rw [hg]
    cases tokenAt (c :: tl) with
    | ok t => simp
    | error m => simp
  refine ⟨herr.trans (tokenAt_error_iff c tl), ?_, ?_,
    fun M hM hr => getNextToken_at_end hM hr, by decide, by decide, by decide⟩
  · rw [htok, tokenAt_error_iff]
  · intro hb hn
    subst hb
    rw [hg]
    have : tokenAt ('!' :: tl) = Except.error "Unexpected character '!' without '='" := by
      have h0 : ∀ cs : List Char, tokenAt ('!' :: cs) =
          if cs.head? = some '=' then Except.ok ⟨TOKEN_NEQ, ['!', '=']⟩
          else Except.error "Unexpected character '!' without '='" := fun _ => rfl
      rw [h0, if_neg hn]
    rw [this]

/-- C14 at the lexer that starts on the source ` !x`, whose first
non-whitespace character is a bare `!`. -/
theorem C14_failure_characterisation_witness :
    (initLexer " !x".toList).wf ∧ (∀ d ∈ [' '], isspace d = true) ∧ isspace '!' = false ∧
      (initLexer " !x".toList).rest = [' '] ++ '!' :: "x".toList ∧
      ∃ m, getNextToken (initLexer " !x".toList) = Outcome.lexError m :=
  ⟨by decide, by decide, by decide, by decide,
    (C14_failure_characterisation (initLexer " !x".toList) [' '] '!' "x".toList (by decide)
      (by decide) (by decide) (by decide)).1.mpr (Or.inl ⟨rfl, by decide⟩)⟩

/-- C15: cursor invariant.  For every NUL-free source text, the lexer made by
`initLexer` satisfies, and `advance`, `skipWhitespace`, `getIdentifier`,
`getNumber`, `getNextToken`, `skipComment` and `getString` preserve, the
invariant that `pos` is at most the length of the source and `currentChar` is
the character of the source at `pos`, which is the terminator exactly when
`pos` is the length of the source (`srcLen`, which no operation changes, being
that length).  Hence every position the operations reach stays within the
source and its terminator, and `advance` at the end of input changes
nothing. -/
theorem C15_cursor_invariant (src : List Char) (hnul : ∀ c ∈ src, c ≠ NUL) :
    (initLexer src).wf ∧ (initLexer src).src = src ∧
    ∀ L : Lexer, L.src = src → L.wf →
      (L.wf ↔ (L.srcLen = src.length ∧ L.pos ≤ src.length ∧
        L.currentChar = charAt src L.pos)) ∧
      (L.currentChar = NUL ↔ L.pos = src.length) ∧
      ((advance L).wf ∧ (advance L).src = src) ∧
      (∃ L1, skipWhitespace L = some L1 ∧ L1.wf ∧ L1.src = src) ∧
      (∃ t L1, getIdentifier L = some (t, L1) ∧ L1.wf ∧ L1.src = src) ∧
      (∃ t L1, getNumber L = some (t, L1) ∧ L1.wf ∧ L1.src = src) ∧
      (getNextToken L ≠ Outcome.outOfFuel ∧
        ∀ t L1, getNextToken L = Outcome.token t L1 → L1.wf ∧ L1.src = src) ∧
      (∃ L1, skipComment L = some L1 ∧ L1.wf ∧ L1.src = src) ∧
      (getString L ≠ Outcome.outOfFuel ∧
        ∀ t L1, getString L = Outcome.token t L1 → L1.wf ∧ L1.src = src) ∧
      (L.pos = src.length → advance L = L) := by
  refine ⟨(initLexer_wf src).1, rfl, ?_⟩
  intro L hsrc hwf
  have hstr : strlen src = src.length := by rw [strlen, cstr_eq_self hnul]
  have hrest : L.rest = src.drop L.pos := by rw [Lexer.rest, hsrc, cstr_eq_self hnul]
  have hle : L.pos ≤ src.length := by
    have := hwf.2.1
    rw [hwf.1, hsrc, hstr] at this
    exact this
  refine ⟨?_, ?_, ?_, ?_, ?_, ?_, ?_, ?_, ?_, ?_⟩
  · unfold Lexer.wf
    rw [hsrc, hstr]
    constructor
    · rintro ⟨h1, h2, h3⟩
      exact ⟨h1, by rw [h1] at h2; exact h2, h3⟩
    · rintro ⟨h1, h2, h3⟩
      exact ⟨h1, by rw [h1]; exact h2, h3⟩
  · rw [wf_currentChar hwf]
    constructor
    · intro hc
      cases hr : L.rest with
      | nil =>
        rw [hrest, List.drop_eq_nil_iff] at hr
        omega
      | cons d ds =>
        rw [hr] at hc
        have hd : d ∈ L.rest := by rw [hr]; simp
        exact absurd hc (mem_rest_ne_nul hd)
    · intro hp
      have : L.rest = [] := by rw [hrest, hp]; simp
      rw [this]
      rfl
  · obtain ⟨h1, h2, _⟩ := advance_wf hwf
    exact ⟨h1, h2.trans hsrc⟩
  · obtain ⟨h1, h2, _⟩ := advanceWhile_wf isspace isspace_nul hwf
    exact ⟨_, h1, h2, hsrc⟩
  · obtain ⟨_, h2, _⟩ := advanceWhile_wf isIdentifierChar isIdentifierChar_nul hwf
    exact ⟨_, _, getIdentifier_wf hwf, h2, hsrc⟩
  · obtain ⟨h1, h2⟩ := getNumber_wf hwf
    exact ⟨_, _, h1, h2, hsrc⟩
  · refine ⟨getNextToken_ne_outOfFuel hwf, fun t L1 hg => ?_⟩
    obtain ⟨_, _, h3, h4, _⟩ := getNextToken_step hwf hg
    exact ⟨h3, h4.trans hsrc⟩
  · obtain ⟨L1, h1, h2, h3, _⟩ := skipComment_wf hwf
    exact ⟨L1, h1, h2, h3.trans hsrc⟩
  · obtain ⟨h1, h2⟩ := getString_wf hwf
    refine ⟨h1, fun t L1 hg => ?_⟩
    obtain ⟨h3, h4, _⟩ := h2 t L1 hg
    exact ⟨h3, h4.trans hsrc⟩
  · intro hp
    apply advance_wf_nil hwf
    rw [hrest, hp]
    simp

/-- C15 at the source `a "b" /`, which has no NUL. -/
theorem C15_cursor_invariant_witness :
    (∀ c ∈ "a \"b\" /".toList, c ≠ NUL) ∧ (initLexer "a \"b\" /".toList).wf ∧
      (initLexer "a \"b\" /".toList).src = "a \"b\" /".toList ∧
      (advance (initLexer "a \"b\" /".toList)).wf ∧
      (advance (initLexer "a \"b\" /".toList)).src = "a \"b\" /".toList :=
  ⟨by decide,
    (C15_cursor_invariant "a \"b\" /".toList (by decide)).1,
    (C15_cursor_invariant "a \"b\" /".toList (by decide)).2.1,
    ((C15_cursor_invariant "a \"b\" /".toList (by decide)).2.2
      (initLexer "a \"b\" /".toList) rfl (by decide)).2.2.1⟩

/-- C16: progress and termination.  On a lexer satisfying the cursor
invariant, `pos` never decreases across `advance`, `skipWhitespace`,
`getIdentifier`, `getNumber`, `skipComment`, `getString` and `getNextToken`;
a call of `getNextToken` returns a token or an error within its iteration
budget, and when the token is not the end-of-input token `pos` strictly
increases, by at least the length of the returned value.  While `currentChar`
is not the terminator, which every inner loop condition requires, `advance`
moves `pos` by one and keeps it at most `srcLen`, so each inner loop returns.
For every source of length `n` the pull loop ends, with the end-of-input token
or an error, within `n + 1` calls, returning at most `n + 1` tokens. -/
theorem C16_progress_termination (L : Lexer) (hwf : L.wf) :
    L.pos ≤ (advance L).pos ∧
    (L.currentChar ≠ NUL → (advance L).pos = L.pos + 1 ∧ (advance L).pos ≤ L.srcLen) ∧
    (∃ L1, skipWhitespace L = some L1 ∧ L.pos ≤ L1.pos) ∧
    (∃ t L1, getIdentifier L = some (t, L1) ∧ L.pos ≤ L1.pos) ∧
    (∃ t L1, getNumber L = some (t, L1) ∧ L.pos ≤ L1.pos) ∧
    (∃ L1, skipComment L = some L1 ∧ L.pos ≤ L1.pos) ∧
    (getString L ≠ Outcome.outOfFuel ∧
      ∀ t L1, getString L = Outcome.token t L1 → L.pos ≤ L1.pos) ∧
    getNextToken L ≠ Outcome.outOfFuel ∧
    (∀ t L1, getNextToken L = Outcome.token t L1 →
      L.pos ≤ L1.pos ∧ L.pos + t.value.length ≤ L1.pos ∧
        (t.type ≠ TOKEN_EOF → L.pos < L1.pos)) ∧
    (∀ src : List Char, (scan src).2 ≠ ScanEnd.outOfFuel ∧
      (scan src).1.length ≤ strlen src + 1) := by
  refine ⟨(advance_wf hwf).2.2.1, ?_, ?_, ?_, ?_, ?_, ?_, getNextToken_ne_outOfFuel hwf, ?_, ?_⟩
  · intro hc
    cases hr : L.rest with
    | nil =>
      rw [wf_currentChar hwf, hr] at hc
      exact absurd rfl hc
    | cons c cs =>
      obtain ⟨h1, h2, _⟩ := advance_wf_cons hwf hr
      rw [h1]
      refine ⟨rfl, ?_⟩
      have := h2.2.1
      exact this
  · obtain ⟨h1, _⟩ := advanceWhile_wf isspace isspace_nul hwf
    exact ⟨_, h1, Nat.le_add_right _ _⟩
  · exact ⟨_, _, getIdentifier_wf hwf, Nat.le_add_right _ _⟩
  · exact ⟨_, _, (getNumber_wf hwf).1, Nat.le_add_right _ _⟩
  · obtain ⟨L1, h1, _, _, h4⟩ := skipComment_wf hwf
    exact ⟨L1, h1, h4⟩
  · obtain ⟨h1, h2⟩ := getString_wf hwf
    exact ⟨h1, fun t L1 hg => (h2 t L1 hg).2.2⟩
  · intro t L1 hg
    obtain ⟨h1, h2⟩ := getNextToken_progress hwf hg
    exact ⟨by omega, h1, h2⟩
  · intro src
    exact ⟨scan_ne_outOfFuel src, scanLoop_length _ _⟩

/-- C16 at the lexer that starts on the source `ab 12`. -/
theorem C16_progress_termination_witness :
    (initLexer "ab 12".toList).wf ∧
      getNextToken (initLexer "ab 12".toList) =
        Outcome.token ⟨TOKEN_IDENTIFIER, "ab".toList⟩ ((initLexer "ab 12".toList).moveTo 2) ∧
      (initLexer "ab 12".toList).pos < ((initLexer "ab 12".toList).moveTo 2).pos :=
  ⟨by decide, by decide,
    ((C16_progress_termination (initLexer "ab 12".toList) (by decide)).2.2.2.2.2.2.2.2.1
      ⟨TOKEN_IDENTIFIER, "ab".toList⟩ ((initLexer "ab 12".toList).moveTo 2)
      (by decide)).2.2 (by decide)⟩

/-- C17: contract of `getString`.  For every lexer satisfying the cursor
invariant whose cursor is on an opening double quote at position `p`: when the
text after it is `body`, free of double quotes, followed by a double quote (so
that the first later quote is at `q = p + 1 + length body`), `getString`
returns String with value exactly `body` and leaves the cursor at `q + 1`;
when no double quote follows, `getString` returns no token and ends in the
error "Unterminated string literal". -/
theorem C17_getString_contract (L : Lexer) (body tl : List Char) (hwf : L.wf)
    (hbody : DQUOTE ∉ body) :
    (L.rest = DQUOTE :: (body ++ DQUOTE :: tl) →
      getString L =
        Outcome.token ⟨TOKEN_STRING, body⟩ (L.moveTo (L.pos + 1 + body.length + 1))) ∧
    (L.rest = DQUOTE :: body →
      getString L = Outcome.lexError "Unterminated string literal") := by
  have hq : DQUOTE ≠ NUL := by decide
  constructor
  · intro hrest
    obtain ⟨ha, hwf1, hrest1, _⟩ := advance_wf_cons hwf hrest
    have hnn : ∀ c ∈ body ++ DQUOTE :: tl, c ≠ NUL := by
      intro c hc
      rw [← hrest1] at hc
      exact mem_rest_ne_nul hc
    have htake := takeWhile_and_ne_nul DQUOTE _ hnn
    have hsplit := takeWhile_ne_of_not_mem DQUOTE body tl hbody
    obtain ⟨hw1, hwf2, hrest2, hcur2⟩ :=
      advanceWhile_wf (fun c => c != DQUOTE && c != NUL) (by decide) hwf1
    rw [hrest1, htake.1, hsplit.1] at hw1 hwf2 hrest2 hcur2
    rw [htake.2, hsplit.2.1] at hrest2 hcur2
    obtain ⟨hb, _⟩ := advance_wf_cons hwf2 hrest2
    have hsub := substr_wf hwf1 body (DQUOTE :: tl) hrest1
    have hne : ¬ ((L.moveTo (L.pos + 1)).moveTo ((L.moveTo (L.pos + 1)).pos +
        body.length)).currentChar = NUL := by
      rw [hcur2]
      exact hq
    unfold getString
    simp only [ha, hw1, if_neg hne, hb, makeToken]
    have hv : substr L.src (L.moveTo (L.pos + 1)).pos
        (((L.moveTo (L.pos + 1)).moveTo ((L.moveTo (L.pos + 1)).pos + body.length)).pos -
          (L.moveTo (L.pos + 1)).pos) = body := hsub
    rw [hv]
    rfl
  · intro hrest
    obtain ⟨ha, hwf1, hrest1, _⟩ := advance_wf_cons hwf hrest
    have hnn : ∀ c ∈ body, c ≠ NUL := by
      intro c hc
      rw [← hrest1] at hc
      exact mem_rest_ne_nul hc
    have htake := takeWhile_and_ne_nul DQUOTE _ hnn
    have hsplit := takeWhile_ne_of_not_mem DQUOTE body [] hbody
    obtain ⟨hw1, _, _, hcur2⟩ :=
      advanceWhile_wf (fun c => c != DQUOTE && c != NUL) (by decide) hwf1
    have hdrop : List.dropWhile (fun c => c != DQUOTE && c != NUL)
        (L.moveTo (L.pos + 1)).rest = [] := by
      rw [hrest1, htake.2, hsplit.2.2.2]
    rw [hdrop] at hcur2
    unfold getString
    simp only [ha, hw1]
    exact if_pos hcur2

/-- C17 at the lexer placed on the opening quote of `x = "hi" + 1`, at
position 4: the closing quote is at position 7 and the cursor is left at 8. -/
theorem C17_getString_contract_witness :
    ((initLexer "x = \"hi\" + 1".toList).moveTo 4).wf ∧ DQUOTE ∉ "hi".toList ∧
      ((initLexer "x = \"hi\" + 1".toList).moveTo 4).rest =
        DQUOTE :: ("hi".toList ++ DQUOTE :: " + 1".toList) ∧
      getString ((initLexer "x = \"hi\" + 1".toList).moveTo 4) =
        Outcome.token ⟨TOKEN_STRING, "hi".toList⟩
          (((initLexer "x = \"hi\" + 1".toList).moveTo 4).moveTo
            (((initLexer "x = \"hi\" + 1".toList).moveTo 4).pos + 1 + "hi".toList.length + 1)) :=
  ⟨by decide, by decide, by decide,
    (C17_getString_contract ((initLexer "x = \"hi\" + 1".toList).moveTo 4) "hi".toList
      " + 1".toList (by decide) (by decide)).1 (by decide)⟩

/-- C18: `skipComment` on a comment.  For every lexer satisfying the cursor
invariant whose cursor is on the two characters `//`, `skipComment` returns
with the cursor on the first newline at or after the comment start, or at the
end of input when no newline follows: the text skipped is `//` and the
characters before that newline, none of which is a newline, and the newline
itself is left ahead, under the cursor. -/
theorem C18_skipComment_on_comment (L : Lexer) (r : List Char) (hwf : L.wf)
    (hrest : L.rest = '/' :: '/' :: r) :
    ∃ L1, skipComment L = some L1 ∧
      L1 = L.moveTo (L.pos + 2 + (r.takeWhile (fun c => c != '\n')).length) ∧
      L1.rest = r.dropWhile (fun c => c != '\n') ∧
      L.rest = ('/' :: '/' :: r.takeWhile (fun c => c != '\n')) ++ L1.rest ∧
      (∀ c ∈ '/' :: '/' :: r.takeWhile (fun c => c != '\n'), c ≠ '\n') ∧
      ((L1.rest.head? = some '\n' ∧ L1.currentChar = '\n') ∨
        (L1.rest = [] ∧ L1.currentChar = NUL)) := by
  have hsl : ('/' != '\n') = true := by decide
  obtain ⟨ha, hwf1, hrest1, hcur1⟩ := advance_wf_cons hwf hrest
  have hc : L.currentChar = '/' := by rw [wf_currentChar hwf, hrest]; rfl
  have hc1 : (L.moveTo (L.pos + 1)).currentChar = '/' := by rw [hcur1]; rfl
  have hnn : ∀ c ∈ '/' :: r, c ≠ NUL := by
    intro c hcm
    rw [← hrest1] at hcm
    exact mem_rest_ne_nul hcm
  have htake := takeWhile_and_ne_nul '\n' _ hnn
  obtain ⟨hw1, _, hrest2, hcur2⟩ :=
    advanceWhile_wf (fun c => c != '\n' && c != NUL) (by decide) hwf1
  have ht : List.takeWhile (fun c => c != '\n' && c != NUL) (L.moveTo (L.pos + 1)).rest =
      '/' :: r.takeWhile (fun c => c != '\n') := by
    rw [hrest1, htake.1, List.takeWhile_cons, if_pos hsl]
  have hd : List.dropWhile (fun c => c != '\n' && c != NUL) (L.moveTo (L.pos + 1)).rest =
      r.dropWhile (fun c => c != '\n') := by
    rw [hrest1, htake.2, List.dropWhile_cons, if_pos hsl]
  rw [ht] at hw1 hrest2 hcur2
  rw [hd] at hrest2 hcur2
  have hpos : (L.moveTo (L.pos + 1)).moveTo ((L.moveTo (L.pos + 1)).pos +
      ('/' :: r.takeWhile (fun c => c != '\n')).length) =
      L.moveTo (L.pos + 2 + (r.takeWhile (fun c => c != '\n')).length) := by
    rw [moveTo_moveTo]
    congr 1
    simp only [Lexer.moveTo, List.length_cons]
    omega
  rw [hpos] at hw1 hrest2 hcur2
  refine ⟨_, ?_, rfl, hrest2, ?_, ?_, ?_⟩
  · unfold skipComment
    rw [if_pos hc]
    simp only [ha, if_pos hc1]
    exact hw1
  · rw [hrest, hrest2]
    simp only [List.cons_append, List.takeWhile_append_dropWhile]
  · intro c hcm
    simp only [List.mem_cons] at hcm
    rcases hcm with rfl | rfl | hcm
    · decide
    · decide
    · simpa using List.mem_takeWhile_imp hcm
  · rw [hrest2, hcur2]
    have := List.head?_dropWhile_not (fun c => c != '\n') r
    cases hl : r.dropWhile (fun c => c != '\n') with
    | nil => exact Or.inr ⟨rfl, rfl⟩
    | cons d ds =>
      rw [hl] at this
      have hdn : d = '\n' := by simpa using this
      exact Or.inl ⟨by rw [hdn]; rfl, by rw [hdn]; rfl⟩

/-- C18 at the lexer placed on the `//` of the comment example, at position 2:
the cursor is left on the newline, at position 12. -/
theorem C18_skipComment_on_comment_witness :
    ((initLexer commentSource).moveTo 2).wf ∧
      ((initLexer commentSource).moveTo 2).rest = '/' :: '/' :: " comment\n2".toList ∧
      ∃ L1, skipComment ((initLexer commentSource).moveTo 2) = some L1 ∧
        L1 = ((initLexer commentSource).moveTo 2).moveTo
          (((initLexer commentSource).moveTo 2).pos + 2 +
            (" comment\n2".toList.takeWhile (fun c => c != '\n')).length) ∧
        L1.rest = " comment\n2".toList.dropWhile (fun c => c != '\n') ∧
        ((initLexer commentSource).moveTo 2).rest =
          ('/' :: '/' :: " comment\n2".toList.takeWhile (fun c => c != '\n')) ++ L1.rest ∧
        (∀ c ∈ '/' :: '/' :: " comment\n2".toList.takeWhile (fun c => c != '\n'), c ≠ '\n') ∧
        ((L1.rest.head? = some '\n' ∧ L1.currentChar = '\n') ∨
          (L1.rest = [] ∧ L1.currentChar = NUL)) :=
  ⟨by decide, by decide,
    C18_skipComment_on_comment ((initLexer commentSource).moveTo 2) " comment\n2".toList
      (by decide) (by decide)⟩

/-- C19: `skipComment` consumes a `/` that does not start a comment.  On a
lexer whose cursor is not on a `/` it changes nothing, but on the source `/2`,
whose cursor is on a single `/` followed by `2`, it returns with the cursor on
the `2`, at position 1, where position 0 and the character `/` are expected to
be kept: the next call of `getNextToken` then returns Int("2") and the Div
token that a call before `skipComment` returns is lost.  On the source `/` the
cursor is moved to the end of input in the same way. -/
theorem C19_skipComment_single_slash :
    skipComment (initLexer "/2".toList) = some ((initLexer "/2".toList).moveTo 1) ∧
      (initLexer "/2".toList).pos = 0 ∧ (initLexer "/2".toList).currentChar = '/' ∧
      ((initLexer "/2".toList).moveTo 1).pos = 1 ∧
      ((initLexer "/2".toList).moveTo 1).currentChar = '2' ∧
      getNextToken (initLexer "/2".toList) =
        Outcome.token ⟨TOKEN_DIV, "/".toList⟩ ((initLexer "/2".toList).moveTo 1) ∧
      getNextToken ((initLexer "/2".toList).moveTo 1) =
        Outcome.token ⟨TOKEN_INT, "2".toList⟩ ((initLexer "/2".toList).moveTo 2) ∧
      skipComment (initLexer "/".toList) = some ((initLexer "/".toList).moveTo 1) ∧
      ((initLexer "/".toList).moveTo 1).currentChar = NUL ∧
      skipComment (initLexer "a/2".toList) = some (initLexer "a/2".toList) := by
  decide

/-- C20: unreachable token kinds.  For every source and every lexer state
reached from `initLexer` by calls of `getNextToken`, a token returned by
`getNextToken` has one of the kinds Plus, Minus, Mul, Div, Int, Float, Print,
If, Else, While, Identifier, LParen, RParen, LBrace, RBrace, Eq, EqEq, Neq,
Lte, Gte and EOF, hence never Lt, Gt, String, FStringStart, FStringEnd or
FStringVar; and each of the twenty-one kinds is returned by the first call on
some source. -/
theorem C20_returned_kinds (src : List Char) (L : Lexer) (t : Token) (L1 : Lexer)
    (hreach : Reachable src L) (hcall : getNextToken L = Outcome.token t L1) :
    t.type ∈ returnedKinds ∧
      t.type ≠ TOKEN_LT ∧ t.type ≠ TOKEN_GT ∧ t.type ≠ TOKEN_STRING ∧
      t.type ≠ TOKEN_FSTRING_START ∧ t.type ≠ TOKEN_FSTRING_END ∧
      t.type ≠ TOKEN_FSTRING_VAR ∧
      ∀ K ∈ returnedKinds, ∃ s t1 L2,
        getNextToken (initLexer s) = Outcome.token t1 L2 ∧ t1.type = K := by
  obtain ⟨hwf, _⟩ := reachable_wf hreach
  obtain ⟨ht, _⟩ := getNextToken_step hwf hcall
  have hmem := tokenAt_type_mem ht
  have hno : ∀ K : TokenType, K ∉ returnedKinds → t.type ≠ K := by
    intro K hK he
    rw [he] at hmem
    exact hK hmem
  refine ⟨hmem, hno _ (by decide), hno _ (by decide), hno _ (by decide), hno _ (by decide),
    hno _ (by decide), hno _ (by decide), ?_⟩
  intro K hK
  simp only [returnedKinds, List.mem_cons, List.mem_singleton, List.mem_nil_iff,
    or_false] at hK
  rcases hK with rfl | rfl | rfl | rfl | rfl | rfl | rfl | rfl | rfl | rfl | rfl | rfl | rfl |
    rfl | rfl | rfl | rfl | rfl | rfl | rfl | rfl
  · exact ⟨"+".toList, ⟨TOKEN_PLUS, "+".toList⟩, (initLexer "+".toList).moveTo 1,
      by decide, rfl⟩
  · exact ⟨"-".toList, ⟨TOKEN_MINUS, "-".toList⟩, (initLexer "-".toList).moveTo 1,
      by decide, rfl⟩
  · exact ⟨"*".toList, ⟨TOKEN_MUL, "*".toList⟩, (initLexer "*".toList).moveTo 1,
      by decide, rfl⟩
  · exact ⟨"/".toList, ⟨TOKEN_DIV, "/".toList⟩, (initLexer "/".toList).moveTo 1,
      by decide, rfl⟩
  · exact ⟨"1".toList, ⟨TOKEN_INT, "1".toList⟩, (initLexer "1".toList).moveTo 1,
      by decide, rfl⟩
  · exact ⟨"1.5".toList, ⟨TOKEN_FLOAT, "1.5".toList⟩, (initLexer "1.5".toList).moveTo 3,
      by decide, rfl⟩
  · exact ⟨"print".toList, ⟨TOKEN_PRINT, "print".toList⟩, (initLexer "print".toList).moveTo 5,
      by decide, rfl⟩
  · exact ⟨"if".toList, ⟨TOKEN_IF, "if".toList⟩, (initLexer "if".toList).moveTo 2,
      by decide, rfl⟩
  · exact ⟨"else".toList, ⟨TOKEN_ELSE, "else".toList⟩, (initLexer "else".toList).moveTo 4,
      by decide, rfl⟩
  · exact ⟨"while".toList, ⟨TOKEN_WHILE, "while".toList⟩, (initLexer "while".toList).moveTo 5,
      by decide, rfl⟩
  · exact ⟨"x".toList, ⟨TOKEN_IDENTIFIER, "x".toList⟩, (initLexer "x".toList).moveTo 1,
      by decide, rfl⟩
  · exact ⟨"(".toList, ⟨TOKEN_LPAREN, "(".toList⟩, (initLexer "(".toList).moveTo 1,
      by decide, rfl⟩
  · exact ⟨")".toList, ⟨TOKEN_RPAREN, ")".toList⟩, (initLexer ")".toList).moveTo 1,
      by decide, rfl⟩
  · exact ⟨"\x7b".toList, ⟨TOKEN_LBRACE, "\x7b".toList⟩, (initLexer "\x7b".toList).moveTo 1,
      by decide, rfl⟩
  · exact ⟨"\x7d".toList, ⟨TOKEN_RBRACE, "\x7d".toList⟩, (initLexer "\x7d".toList).moveTo 1,
      by decide, rfl⟩
  · exact ⟨"=".toList, ⟨TOKEN_EQ, "=".toList⟩, (initLexer "=".toList).moveTo 1,
      by decide, rfl⟩
  · exact ⟨"==".toList, ⟨TOKEN_EQEQ, "==".toList⟩, (initLexer "==".toList).moveTo 2,
      by decide, rfl⟩
  · exact ⟨"!=".toList, ⟨TOKEN_NEQ, "!=".toList⟩, (initLexer "!=".toList).moveTo 2,
      by decide, rfl⟩
  · exact ⟨"<".toList, ⟨TOKEN_LTE, "<".toList⟩, (initLexer "<".toList).moveTo 1,
      by decide, rfl⟩
  · exact ⟨">".toList, ⟨TOKEN_GTE, ">".toList⟩, (initLexer ">".toList).moveTo 1,
      by decide, rfl⟩
  · exact ⟨[], ⟨TOKEN_EOF, []⟩, (initLexer []).moveTo 0, by decide, rfl⟩

/-- C20 at the second call on the source `a < "b"`, which returns the kind
Lte. -/
theorem C20_returned_kinds_witness :
    Reachable "a < \"b\"".toList ((initLexer "a < \"b\"".toList).moveTo 1) ∧
      getNextToken ((initLexer "a < \"b\"".toList).moveTo 1) =
        Outcome.token ⟨TOKEN_LTE, "<".toList⟩ ((initLexer "a < \"b\"".toList).moveTo 3) ∧
      (⟨TOKEN_LTE, "<".toList⟩ : Token).type ∈ returnedKinds ∧
      (⟨TOKEN_LTE, "<".toList⟩ : Token).type ≠ TOKEN_LT :=
  have hr : Reachable "a < \"b\"".toList ((initLexer "a < \"b\"".toList).moveTo 1) :=
    Reachable.next Reachable.init
      (show getNextToken (initLexer "a < \"b\"".toList) =
        Outcome.token ⟨TOKEN_IDENTIFIER, "a".toList⟩ ((initLexer "a < \"b\"".toList).moveTo 1)
        by decide)
  have hc := C20_returned_kinds "a < \"b\"".toList ((initLexer "a < \"b\"".toList).moveTo 1)
    ⟨TOKEN_LTE, "<".toList⟩ ((initLexer "a < \"b\"".toList).moveTo 3) hr (by decide)
  ⟨hr, by decide, hc.1, hc.2.1⟩

end LexerC
